import Mathlib

/-!
# Verification of the ds2api protocol-gateway core

This file gives a shallow embedding, in Lean 4, of the core components of the
ds2api gateway (the DeepSeek SSE streaming decoder in `core/sse_parser.py`, the
round-robin account pool in `core/auth.py`, the prompt compiler in
`core/messages.py`, and the PoW solver wrapper in `core/pow.py`), together with
theorems settling the specification claims about those components.

Python dynamic values flowing through the decoder are modelled by the `PyVal`
type (JSON-shaped data).  String primitives (`str.strip`, `str.upper`,
substring tests, `str.startswith` / `str.endswith`) are modelled over ASCII,
which covers every character class the source code relies on.
-/

namespace DS2API

/-! ## Python string primitives -/

/-- Uppercase an ASCII letter, modelling Python `str.upper` per character
(the tags the source compares against are ASCII). -/
def asciiUpperChar (c : Char) : Char :=
  if 'a' ≤ c ∧ c ≤ 'z' then Char.ofNat (c.toNat - 32) else c

/-- Python `s.upper()` on the ASCII range. -/
def pyUpper (s : String) : String := String.mk (s.data.map asciiUpperChar)

/-- Python whitespace characters recognised by `str.strip` (ASCII range). -/
def isPyWS (c : Char) : Bool :=
  c == ' ' || c == '\t' || c == '\n' || c == '\r' ||
  c == Char.ofNat 11 || c == Char.ofNat 12

/-- Python `s.strip()` (ASCII whitespace). -/
def pyStrip (s : String) : String :=
  String.mk (((s.data.dropWhile isPyWS).reverse.dropWhile isPyWS).reverse)

/-- `needle` occurs at the start of `hay` (char-list form). -/
def startsWithL : List Char → List Char → Bool
  | [], _ => true
  | _ :: _, [] => false
  | n :: ns, h :: hs => n == h && startsWithL ns hs

/-- `needle` occurs somewhere inside `hay` (char-list form); models Python
`needle in hay` on strings. -/
def containsSub (needle : List Char) : List Char → Bool
  | [] => needle.isEmpty
  | h :: hs => startsWithL needle (h :: hs) || containsSub needle hs

/-- Python `sub in s` for strings. -/
def pyIn (sub s : String) : Bool := containsSub sub.data s.data

/-- Python `s.startswith(p)`. -/
def pyStartsWith (s p : String) : Bool := startsWithL p.data s.data

/-- Python `s.endswith(p)`. -/
def pyEndsWith (s p : String) : Bool := startsWithL p.data.reverse s.data.reverse

/-! ## Python values

`PyVal` models the JSON-shaped Python values the decoder manipulates:
`None`, booleans, integers, floats (kept as their source token — the decoder
never computes with them), strings, lists, and dicts (insertion-ordered
key/value pairs, as in Python). -/

inductive PyVal where
  | none : PyVal
  | bool : Bool → PyVal
  | int : Int → PyVal
  | float : String → PyVal
  | str : String → PyVal
  | list : List PyVal → PyVal
  | dict : List (String × PyVal) → PyVal

/-- First binding of key `k` in an association list (dicts built below never
hold duplicate keys, mirroring Python dicts). -/
def dictFind {α : Type} (kvs : List (String × α)) (k : String) : Option α :=
  match kvs with
  | [] => Option.none
  | (k', v) :: rest => if k' == k then some v else dictFind rest k

/-- Python `d[k] = v`: overwrite in place if present, else append. -/
def dictInsert {α : Type} (kvs : List (String × α)) (k : String) (v : α) :
    List (String × α) :=
  match kvs with
  | [] => [(k, v)]
  | (k', v') :: rest =>
    if k' == k then (k', v) :: rest else (k', v') :: dictInsert rest k v

/-- Python `del d[k]` (key occurs at most once in the dicts we build). -/
def dictDel {α : Type} (kvs : List (String × α)) (k : String) :
    List (String × α) :=
  match kvs with
  | [] => []
  | (k', v') :: rest => if k' == k then rest else (k', v') :: dictDel rest k

/-- Python `item.get(k, d)` on a dict. -/
def pyGetD (kvs : List (String × PyVal)) (k : String) (d : PyVal) : PyVal :=
  (dictFind kvs k).getD d

/-- Python `item.get(k, "")` followed by use as a string: yields the string
when the field holds one, `""` otherwise (the source only ever feeds string
fields to the string operations). -/
def getStrField (kvs : List (String × PyVal)) (k : String) : String :=
  match dictFind kvs k with
  | some (.str s) => s
  | _ => ""

/-- Python `v == lit` where `lit` is a string literal and `v` an arbitrary
value: true exactly when `v` is that string. -/
def PyVal.eqStr (v : PyVal) (s : String) : Bool :=
  match v with
  | .str t => t == s
  | _ => false

/-! ## Streaming protocol decoder (`core/sse_parser.py`)

A chunk is a parsed JSON object, i.e. a dict.  Fragments are
`(content, kind)` pairs with kind `"thinking"` or `"text"`, exactly the
strings the source uses. -/

/-- `core/constants.py` `SKIP_PATTERNS`. -/
def SKIP_PATTERNS : List String :=
  ["quasi_status", "elapsed_secs", "token_usage",
   "pending_fragment", "conversation_mode",
   "fragments/-1/status", "fragments/-2/status", "fragments/-3/status"]

/-- `should_skip_chunk`: status-related, non-content paths. -/
def should_skip_chunk (chunk_path : String) : Bool :=
  if chunk_path == "response/search_status" then true
  else SKIP_PATTERNS.any (fun kw => pyIn kw chunk_path)

/-- `is_response_finished`: path `response/status` with string value
`FINISHED`. -/
def is_response_finished (chunk_path : String) (v_value : PyVal) : Bool :=
  chunk_path == "response/status" &&
    (match v_value with
     | .str s => s == "FINISHED"
     | _ => false)

/-- `is_finished_signal`: string value `FINISHED` on an empty path or the
exact path `status`. -/
def is_finished_signal (chunk_path v_value : String) : Bool :=
  v_value == "FINISHED" && (chunk_path == "" || chunk_path == "status")

/-- `is_search_result`: item with both a `url` and a `title` field. -/
def is_search_result (item : List (String × PyVal)) : Bool :=
  (dictFind item "url").isSome && (dictFind item "title").isSome

/-- `extract_content_from_item`: pull `(content, kind)` out of an item that
has both a `content` and a `type` field; the inner tag is upper-cased, with
`THINK`/`THINKING` meaning thinking and `RESPONSE` meaning text; empty
content yields nothing. -/
def extract_content_from_item (item : List (String × PyVal))
    (default_type : String) : Option (String × String) :=
  if (dictFind item "content").isSome && (dictFind item "type").isSome then
    let inner_type := pyUpper (getStrField item "type")
    let content := getStrField item "content"
    if content ≠ "" then
      if inner_type == "THINK" || inner_type == "THINKING" then
        some (content, "thinking")
      else if inner_type == "RESPONSE" then some (content, "text")
      else some (content, default_type)
    else Option.none
  else Option.none

/-- The inner loop of `extract_content_recursive` over a list-valued `v`
field: dict items are typed by their own `type` tag (falling back to the
outer type), string items are emitted with the outer type. -/
def innerExtract (content_type : String) : List PyVal → List (String × String)
  | [] => []
  | inner :: rest =>
    (match inner with
     | .dict kv =>
       let inner_type := pyUpper (getStrField kv "type")
       let final_type :=
         if inner_type == "THINK" || inner_type == "THINKING" then "thinking"
         else if inner_type == "RESPONSE" then "text"
         else content_type
       let content := getStrField kv "content"
       if content ≠ "" then [(content, final_type)] else []
     | .str s => if s ≠ "" then [(s, content_type)] else []
     | _ => []) ++ innerExtract content_type rest

/-- `extract_content_recursive`: walk a list of items, skipping search
results and status paths, terminating (result `none`) on an element whose
`p` is exactly `status` with value `FINISHED`. -/
def extract_content_recursive : List PyVal → String →
    Option (List (String × String))
  | [], _ => some []
  | item :: rest, default_type =>
    match item with
    | .dict kv =>
      let item_p := getStrField kv "p"
      let item_v := pyGetD kv "v" .none
      if is_search_result kv then extract_content_recursive rest default_type
      else if item_p == "status" && item_v.eqStr "FINISHED" then Option.none
      else if should_skip_chunk item_p then
        extract_content_recursive rest default_type
      else
        match extract_content_from_item kv default_type with
        | some r =>
          (extract_content_recursive rest default_type).map (fun l => r :: l)
        | Option.none =>
          let content_type :=
            if pyIn "thinking" item_p then "thinking"
            else if pyIn "content" item_p || item_p == "response" ||
                item_p == "fragments" then "text"
            else default_type
          match item_v with
          | .str s =>
            if s ≠ "" && s ≠ "FINISHED" then
              (extract_content_recursive rest default_type).map
                (fun l => (s, content_type) :: l)
            else extract_content_recursive rest default_type
          | .list inners =>
            (extract_content_recursive rest default_type).map
              (fun l => innerExtract content_type inners ++ l)
          | _ => extract_content_recursive rest default_type
    | _ => extract_content_recursive rest default_type

/-- Carry-over update contributed by one fragment descriptor: `THINK` /
`THINKING` (case-insensitively) switches to thinking, `RESPONSE` to text,
anything else leaves the state unchanged. -/
def fragTypeUpd (cur : String) (frag : PyVal) : String :=
  match frag with
  | .dict kv =>
    let t := pyUpper (getStrField kv "type")
    if t == "THINK" || t == "THINKING" then "thinking"
    else if t == "RESPONSE" then "text"
    else cur
  | _ => cur

/-- Carry-over update contributed by one element of a `p:"response"` batch:
only dict elements with `p == "fragments"` and `o == "APPEND"` contribute,
via their fragment descriptors. -/
def batchTypeUpd (cur : String) (batch_item : PyVal) : String :=
  match batch_item with
  | .dict kv =>
    if (pyGetD kv "p" .none).eqStr "fragments" &&
        (pyGetD kv "o" .none).eqStr "APPEND" then
      match pyGetD kv "v" (.list []) with
      | .list frags => frags.foldl fragTypeUpd cur
      | _ => cur
    else cur
  | _ => cur

/-- `parse_sse_chunk_for_content`: decode one chunk into
`(fragments, is_finished, new_fragment_type)`. -/
def parse_sse_chunk_for_content (chunk : List (String × PyVal))
    (thinking_enabled : Bool) (current_fragment_type : String) :
    List (String × String) × Bool × String :=
  match dictFind chunk "v" with
  | Option.none => ([], false, current_fragment_type)
  | some v_value =>
    let chunk_path := getStrField chunk "p"
    if should_skip_chunk chunk_path then ([], false, current_fragment_type)
    else if is_response_finished chunk_path v_value then
      ([], true, current_fragment_type)
    else
      -- fragment-kind detection from a `p:"response"` batch of APPENDs
      let t1 :=
        if chunk_path == "response" then
          match v_value with
          | .list batch => batch.foldl batchTypeUpd current_fragment_type
          | _ => current_fragment_type
        else current_fragment_type
      -- fragment-kind detection from a direct `response/fragments` path
      let new_fragment_type :=
        if pyIn "response/fragments" chunk_path then
          match v_value with
          | .list frags => frags.foldl fragTypeUpd t1
          | _ => t1
        else t1
      let ptype :=
        if chunk_path == "response/thinking_content" then "thinking"
        else if chunk_path == "response/content" then "text"
        else if pyIn "response/fragments" chunk_path &&
            pyIn "/content" chunk_path then new_fragment_type
        else if chunk_path == "" then
          if thinking_enabled then new_fragment_type else "text"
        else "text"
      match v_value with
      | .str s =>
        if is_finished_signal chunk_path s then ([], true, new_fragment_type)
        else if s ≠ "" then ([(s, ptype)], false, new_fragment_type)
        else ([], false, new_fragment_type)
      | .list items =>
        match extract_content_recursive items ptype with
        | Option.none => ([], true, new_fragment_type)
        | some cs => (cs, false, new_fragment_type)
      | _ => ([], false, new_fragment_type)

/-! ## Fragment-descriptor batches (claim C1 support) -/

/-- A fragment descriptor `{"type": t, "content": c}`. -/
def mkDescriptor (tc : String × String) : PyVal :=
  .dict [("type", .str tc.1), ("content", .str tc.2)]

/-- A chunk `{"p": "response/fragments", "o": "APPEND", "v": [descriptors]}`. -/
def mkFragChunk (descs : List (String × String)) : List (String × PyVal) :=
  [("p", .str "response/fragments"), ("o", .str "APPEND"),
   ("v", .list (descs.map mkDescriptor))]

/-- Kind assigned to a descriptor in an append-fragments batch: a reasoning
tag (`THINK`/`THINKING`, case-insensitively) gives thinking, everything else
(including the final-answer tag `RESPONSE`) gives text. -/
def descKind (t : String) : String :=
  if pyUpper t == "THINK" || pyUpper t == "THINKING" then "thinking"
  else "text"

/-- Carry-over update performed by one descriptor tag. -/
def descUpd (cur t : String) : String :=
  if pyUpper t == "THINK" || pyUpper t == "THINKING" then "thinking"
  else if pyUpper t == "RESPONSE" then "text"
  else cur

lemma fragTypeUpd_mkDescriptor (cur : String) (tc : String × String) :
    fragTypeUpd cur (mkDescriptor tc) = descUpd cur tc.1 := rfl

lemma extract_content_recursive_mkDescriptor (descs : List (String × String)) :
    extract_content_recursive (descs.map mkDescriptor) "text" =
      some (descs.filterMap
        (fun tc => if tc.2 ≠ "" then some (tc.2, descKind tc.1)
                   else Option.none)) := by
  induction descs with
  | nil => rfl
  | cons tc rest ih =>
    obtain ⟨t, c⟩ := tc
    simp only [List.map_cons, List.filterMap_cons, extract_content_recursive,
      mkDescriptor]
    by_cases hc : c = ""
    · subst hc
      simp [extract_content_from_item, getStrField, dictFind, pyGetD,
        is_search_result, should_skip_chunk, SKIP_PATTERNS, pyIn, containsSub,
        ih]
    · have hitem : extract_content_from_item
          [("type", PyVal.str t), ("content", PyVal.str c)] "text" =
          some (c, descKind t) := by
        simp only [extract_content_from_item, getStrField, dictFind]
        by_cases h1 : pyUpper t == "THINK" || pyUpper t == "THINKING"
        · simp [h1, hc, descKind]
        · by_cases h2 : pyUpper t == "RESPONSE" <;>
            simp [h1, h2, hc, descKind]
      simp [is_search_result, dictFind, getStrField, should_skip_chunk,
        SKIP_PATTERNS, pyIn, containsSub, hitem, ih, hc]

lemma foldl_fragTypeUpd_map (descs : List (String × String)) (cur : String) :
    (descs.map mkDescriptor).foldl fragTypeUpd cur =
      descs.foldl (fun k tc => descUpd k tc.1) cur := by
  rw [List.foldl_map]
  simp only [fragTypeUpd_mkDescriptor]

/-- C1.  Decoder carry-over kind: an append-fragments batch emits one
fragment per descriptor with non-empty content, kind thinking for a
reasoning tag (`THINK`/`THINKING`, case-insensitive) and text otherwise
(in particular for the final-answer tag `RESPONSE`); the descriptor tags
fold into the returned carry-over kind, last recognised tag winning.  A
subsequent chunk with an empty path inherits the carry-over kind when
thinking mode is enabled and gets kind text when it is disabled.  The
concrete `THINK`/`让我想想` batch yields `("让我想想", thinking)` and sets
the carry-over kind to thinking. -/
theorem c1_decoder_carry_over_kind (te : Bool) (cur : String) :
    (∀ descs : List (String × String),
      parse_sse_chunk_for_content (mkFragChunk descs) te cur =
        (descs.filterMap
          (fun tc => if tc.2 ≠ "" then some (tc.2, descKind tc.1)
                     else Option.none),
         false,
         descs.foldl (fun k tc => descUpd k tc.1) cur))
    ∧ (∀ s : String, s ≠ "" → s ≠ "FINISHED" →
        parse_sse_chunk_for_content [("v", PyVal.str s)] te cur =
          ([(s, if te then cur else "text")], false, cur))
    ∧ parse_sse_chunk_for_content (mkFragChunk [("THINK", "让我想想")]) te cur
        = ([("让我想想", "thinking")], false, "thinking") := by
  refine ⟨fun descs => ?_, fun s hne hfin => ?_, by rfl⟩
  · show (match extract_content_recursive (descs.map mkDescriptor) "text" with
      | Option.none =>
        (([] : List (String × String)), true,
          (descs.map mkDescriptor).foldl fragTypeUpd cur)
      | some cs =>
        (cs, false, (descs.map mkDescriptor).foldl fragTypeUpd cur)) = _
    rw [extract_content_recursive_mkDescriptor, foldl_fragTypeUpd_map]
  · show (if is_finished_signal "" s then
        (([] : List (String × String)), true, cur)
      else if s ≠ "" then
        ([(s, if te then cur else "text")], false, cur)
      else ([], false, cur)) = _
    have h1 : is_finished_signal "" s = false := by
      simp [is_finished_signal, hfin]
    simp [h1, hne]

/-- Witness for C1 at a concrete input: thinking mode enabled, carry-over
thinking, empty-path chunk `{"v": "你好"}` inherits kind thinking. -/
theorem c1_witness :
    parse_sse_chunk_for_content [("v", PyVal.str "你好")] true "thinking" =
      ([("你好", "thinking")], false, "thinking") := by
  have h := (c1_decoder_carry_over_kind true "thinking").2.1 "你好"
    (by decide) (by decide)
  simpa using h

/-! ## End-of-stream detection (claim C2) -/

/-- An element of a list value that actually terminates the stream: not a
search result, path exactly `status`, value `FINISHED`. -/
def isExactStatusFinished (item : PyVal) : Bool :=
  match item with
  | .dict kv =>
    !is_search_result kv && (getStrField kv "p" == "status") &&
      (pyGetD kv "v" .none).eqStr "FINISHED"
  | _ => false

lemma extract_content_recursive_eq_none_iff (items : List PyVal)
    (dt : String) :
    extract_content_recursive items dt = Option.none ↔
      ∃ item ∈ items, isExactStatusFinished item = true := by
  induction items with
  | nil => simp [extract_content_recursive]
  | cons item rest ih =>
    cases item with
    | dict kv =>
      simp only [extract_content_recursive]
      by_cases hs : is_search_result kv = true
      · simp [hs, ih, isExactStatusFinished]
      · rw [Bool.not_eq_true] at hs
        by_cases hst : (getStrField kv "p" == "status" &&
            (pyGetD kv "v" PyVal.none).eqStr "FINISHED") = true
        · rw [Bool.and_eq_true] at hst
          simp [hs, hst.1, hst.2, isExactStatusFinished]
        · rw [Bool.and_eq_true, not_and_or] at hst
          have hESF : isExactStatusFinished (PyVal.dict kv) = false := by
            rcases hst with h | h <;>
              simp_all [isExactStatusFinished, Bool.not_eq_true]
          have hst' : (getStrField kv "p" == "status" &&
              (pyGetD kv "v" PyVal.none).eqStr "FINISHED") = false := by
            rcases hst with h | h <;> simp_all [Bool.not_eq_true]
          simp only [hs, Bool.false_eq_true, if_false, hst', hESF]
          split
          · simp [ih, hESF]
          · split
            · simp [Option.map_eq_none', ih, hESF]
            · split
              · split
                · simp [Option.map_eq_none', ih, hESF]
                · simp [ih, hESF]
              · simp [Option.map_eq_none', ih, hESF]
              · simp [ih, hESF]
    | none => simp [extract_content_recursive, ih, isExactStatusFinished]
    | bool b => simp [extract_content_recursive, ih, isExactStatusFinished]
    | int n => simp [extract_content_recursive, ih, isExactStatusFinished]
    | float f => simp [extract_content_recursive, ih, isExactStatusFinished]
    | str s => simp [extract_content_recursive, ih, isExactStatusFinished]
    | list l => simp [extract_content_recursive, ih, isExactStatusFinished]

/-- C2 counterexample: a list value whose element has path `final/status`
(which ends in `status` but is not exactly `status`) with value `FINISHED`
does **not** terminate the stream — the decoder reports
`is_finished = false`, contradicting the claim's "path-suffix" reading. -/
theorem c2_counterexample :
    parse_sse_chunk_for_content
        [("p", PyVal.str "response"),
         ("v", PyVal.list [PyVal.dict
           [("p", PyVal.str "final/status"),
            ("v", PyVal.str "FINISHED")]])]
        false "text" = ([], false, "text")
    ∧ pyEndsWith "final/status" "status" = true := ⟨rfl, rfl⟩

/-- C2 (amended).  End-of-stream detection: (1) path `response/status` with
string value `FINISHED` yields zero fragments and finished; (2) a string
value `FINISHED` on an empty path, or on the path exactly `status`, is an
equivalent end-of-stream signal; (3) a list value terminates the stream —
zero fragments, finished — exactly when some element has path **exactly**
`status` (not merely a path ending in `status`) with value `FINISHED` and is
not a search-result record. -/
theorem c2_end_of_stream (te : Bool) (cur : String) :
    parse_sse_chunk_for_content
        [("p", PyVal.str "response/status"), ("v", PyVal.str "FINISHED")]
        te cur = ([], true, cur)
    ∧ parse_sse_chunk_for_content [("v", PyVal.str "FINISHED")] te cur =
        ([], true, cur)
    ∧ parse_sse_chunk_for_content
        [("p", PyVal.str "status"), ("v", PyVal.str "FINISHED")] te cur =
        ([], true, cur)
    ∧ (∀ (items : List PyVal) (dt : String),
        extract_content_recursive items dt = Option.none ↔
          ∃ item ∈ items, isExactStatusFinished item = true)
    ∧ (∀ items : List PyVal,
        (∃ item ∈ items, isExactStatusFinished item = true) →
          parse_sse_chunk_for_content
            [("p", PyVal.str "response"), ("v", PyVal.list items)] te cur =
            ([], true, items.foldl batchTypeUpd cur)) := by
  refine ⟨rfl, rfl, rfl, extract_content_recursive_eq_none_iff,
    fun items hterm => ?_⟩
  show (match extract_content_recursive items "text" with
    | Option.none => (([] : List (String × String)), true,
        items.foldl batchTypeUpd cur)
    | some cs => (cs, false, items.foldl batchTypeUpd cur)) = _
  rw [(extract_content_recursive_eq_none_iff items "text").mpr hterm]

/-- Witness for C2 at a concrete input: a list value with an exact
`status`/`FINISHED` element terminates the stream. -/
theorem c2_witness :
    parse_sse_chunk_for_content
        [("p", PyVal.str "response"),
         ("v", PyVal.list [PyVal.dict
           [("p", PyVal.str "status"), ("v", PyVal.str "FINISHED")]])]
        true "text" = ([], true, "text") := by
  have h := (c2_end_of_stream true "text").2.2.2.2
    [PyVal.dict [("p", PyVal.str "status"), ("v", PyVal.str "FINISHED")]]
    ⟨_, List.mem_singleton.mpr rfl, by decide⟩
  simpa using h

/-! ## Search-result suppression (claim C7) -/

/-- C7 counterexample: an item nested one level deeper (inside a list-valued
`v` of a first-level item) that has both `url` and `title` **is** emitted as
a content fragment — the suppression check only runs on first-level items. -/
theorem c7_counterexample :
    parse_sse_chunk_for_content
        [("p", PyVal.str "response"),
         ("v", PyVal.list [PyVal.dict
           [("p", PyVal.str "fragments"),
            ("v", PyVal.list [PyVal.dict
              [("url", PyVal.str "u"), ("title", PyVal.str "t"),
               ("content", PyVal.str "hi"),
               ("type", PyVal.str "RESPONSE")]])]])]
        false "text" = ([("hi", "text")], false, "text")
    ∧ is_search_result
        [("url", PyVal.str "u"), ("title", PyVal.str "t"),
         ("content", PyVal.str "hi"), ("type", PyVal.str "RESPONSE")]
        = true := ⟨rfl, rfl⟩

/-- C7 (amended).  Search-result suppression applies to first-level items of
a list value: extracting content from a list of items is unchanged when all
first-level items having both a `url` and a `title` field are removed, i.e.
such items are never emitted and contribute nothing.  (Items nested one
level deeper are not checked — see the counterexample.) -/
theorem c7_search_result_suppression (items : List PyVal) (dt : String) :
    extract_content_recursive items dt =
      extract_content_recursive
        (items.filter (fun i =>
          match i with
          | .dict kv => !is_search_result kv
          | _ => true)) dt := by
  induction items with
  | nil => rfl
  | cons item rest ih =>
    cases item with
    | dict kv =>
      by_cases hs : is_search_result kv = true
      · simp only [List.filter_cons, hs, Bool.not_true, if_false,
          extract_content_recursive]
        simpa using ih
      · rw [Bool.not_eq_true] at hs
        simp only [List.filter_cons, hs, Bool.not_false, if_true,
          extract_content_recursive, ih]
    | none => simpa [List.filter_cons, extract_content_recursive] using ih
    | bool b => simpa [List.filter_cons, extract_content_recursive] using ih
    | int n => simpa [List.filter_cons, extract_content_recursive] using ih
    | float f => simpa [List.filter_cons, extract_content_recursive] using ih
    | str s => simpa [List.filter_cons, extract_content_recursive] using ih
    | list l => simpa [List.filter_cons, extract_content_recursive] using ih

/-! ## Account pool (`core/auth.py`)

An account is modelled by the three fields the pool logic reads; further
config fields (password, etc.) do not influence selection or release.  The
pool state is the global pair `account_queue` / `in_use_accounts`, the
latter an insertion-ordered dict keyed by account identifier. -/

structure Account where
  email : String
  mobile : String
  token : String
deriving DecidableEq, Repr

/-- `core/utils.py` `get_account_identifier`: stripped email if non-empty,
else stripped mobile (Python `a or b`). -/
def get_account_identifier (a : Account) : String :=
  if pyStrip a.email ≠ "" then pyStrip a.email else pyStrip a.mobile

structure PoolState where
  queue : List Account
  inUse : List (String × Account)
deriving DecidableEq, Repr

/-- `account.get("token", "").strip()` is truthy. -/
def hasToken (a : Account) : Bool := pyStrip a.token != ""

/-- `init_account_queue`: load the configured accounts and stable-sort by
token presence (key `0` for a non-empty stripped token, `1` otherwise).
Python's stable sort on a two-valued key is exactly the stable partition:
token-bearing accounts first, each side in configuration order. -/
def init_account_queue (accounts : List Account) : PoolState :=
  { queue := accounts.filter hasToken ++
      accounts.filter (fun a => !hasToken a),
    inUse := [] }

/-- Pass-1 eligibility in `choose_new_account`: truthy identifier, not
excluded, non-empty (stripped) cached token. -/
def eligPass1 (exclude : List String) (a : Account) : Bool :=
  get_account_identifier a ≠ "" &&
  !(exclude.contains (get_account_identifier a)) &&
  hasToken a

/-- Pass-2 eligibility: truthy identifier and not excluded, regardless of
token state. -/
def eligPass2 (exclude : List String) (a : Account) : Bool :=
  get_account_identifier a ≠ "" &&
  !(exclude.contains (get_account_identifier a))

/-- Remove the first list entry satisfying `p`, returning it and the
remaining queue (models the index scan plus `pop(i)`). -/
def popFirst (p : Account → Bool) : List Account →
    Option (Account × List Account)
  | [] => Option.none
  | a :: rest =>
    if p a then some (a, rest)
    else (popFirst p rest).map (fun x => (x.1, a :: x.2))

/-- `choose_new_account`: two scans over the queue — first for an eligible
account with a cached token, then for any eligible account; the selected
account is popped from the queue and recorded in `in_use_accounts` under its
identifier. -/
def choose_new_account (exclude : List String) (s : PoolState) :
    Option Account × PoolState :=
  match popFirst (eligPass1 exclude) s.queue with
  | some (a, q) =>
    (some a, ⟨q, dictInsert s.inUse (get_account_identifier a) a⟩)
  | Option.none =>
    match popFirst (eligPass2 exclude) s.queue with
    | some (a, q) =>
      (some a, ⟨q, dictInsert s.inUse (get_account_identifier a) a⟩)
    | Option.none => (Option.none, s)

/-- `release_account`: if the account's identifier is currently checked out,
drop it from `in_use_accounts` and append the account to the queue tail;
otherwise a no-op. -/
def release_account (a : Account) (s : PoolState) : PoolState :=
  let id := get_account_identifier a
  if (dictFind s.inUse id).isSome then
    ⟨s.queue ++ [a], dictDel s.inUse id⟩
  else s

/-- A pool operation: a checkout with an exclusion list, or a release of an
account value. -/
inductive PoolOp where
  | checkout : List String → PoolOp
  | release : Account → PoolOp
deriving DecidableEq, Repr

def applyOp (s : PoolState) : PoolOp → PoolState
  | .checkout ex => (choose_new_account ex s).2
  | .release a => release_account a s

/-- Run a finite sequence of pool operations. -/
def runOps (s : PoolState) (ops : List PoolOp) : PoolState :=
  ops.foldl applyOp s

/-- `get_queue_status` counts: available, in-use, and total (taken from the
configuration, not the sum). -/
def get_queue_status (accounts : List Account) (s : PoolState) :
    Nat × Nat × Nat :=
  (s.queue.length, s.inUse.length, accounts.length)

/-! ## Pool partition invariant (claim C3) -/

/-- The non-empty identifiers present in the pool: available-queue
identifiers followed by the checked-out keys. -/
def poolIds (s : PoolState) : List String :=
  (s.queue.map get_account_identifier).filter (fun i => i ≠ "") ++
    s.inUse.map Prod.fst

/-- The non-empty identifiers of the configured accounts. -/
def confIds (accounts : List Account) : List String :=
  (accounts.map get_account_identifier).filter (fun i => i ≠ "")

lemma dictFind_isSome_iff {α : Type} (kvs : List (String × α)) (k : String) :
    (dictFind kvs k).isSome ↔ k ∈ kvs.map Prod.fst := by
  induction kvs with
  | nil => simp [dictFind]
  | cons kv rest ih =>
    obtain ⟨k', v⟩ := kv
    by_cases h : k' = k
    · simp [dictFind, h]
    · simp [dictFind, h, ih, Ne.symm h]

lemma dictInsert_of_not_mem {α : Type} (kvs : List (String × α))
    (k : String) (v : α) (h : k ∉ kvs.map Prod.fst) :
    dictInsert kvs k v = kvs ++ [(k, v)] := by
  induction kvs with
  | nil => rfl
  | cons kv rest ih =>
    obtain ⟨k', v'⟩ := kv
    simp only [List.map_cons, List.mem_cons, not_or] at h
    have hne : ¬k' = k := fun hh => h.1 hh.symm
    simp [dictInsert, hne, ih h.2]

lemma map_fst_dictDel {α : Type} (kvs : List (String × α)) (k : String) :
    (dictDel kvs k).map Prod.fst = (kvs.map Prod.fst).erase k := by
  induction kvs with
  | nil => rfl
  | cons kv rest ih =>
    obtain ⟨k', v'⟩ := kv
    by_cases h : k' = k
    · simp [dictDel, h, List.erase_cons_head]
    · simp [dictDel, h, ih, List.erase_cons_tail, Ne.symm h,
        beq_iff_eq]

lemma length_dictDel {α : Type} (kvs : List (String × α)) (k : String)
    (h : k ∈ kvs.map Prod.fst) : (dictDel kvs k).length + 1 = kvs.length := by
  induction kvs with
  | nil => simp at h
  | cons kv rest ih =>
    obtain ⟨k', v'⟩ := kv
    by_cases hk : k' = k
    · simp [dictDel, hk]
    · simp only [List.map_cons, List.mem_cons] at h
      rcases h with h | h
      · exact absurd h.symm hk
      · simp [dictDel, beq_iff_eq, hk, ih h]

lemma popFirst_eq_some {p : Account → Bool} :
    ∀ {l : List Account} {a : Account} {q : List Account},
      popFirst p l = some (a, q) →
      ∃ l₁ l₂, l = l₁ ++ a :: l₂ ∧ q = l₁ ++ l₂ ∧ p a = true := by
  intro l
  induction l with
  | nil => intro a q h; simp [popFirst] at h
  | cons b rest ih =>
    intro a q h
    by_cases hb : p b = true
    · simp only [popFirst, hb, if_true, Option.some.injEq, Prod.mk.injEq] at h
      exact ⟨[], rest, by simp [h.1], by simp [h.2], h.1 ▸ hb⟩
    · have hb' : p b = false := by rwa [Bool.not_eq_true] at hb
      rw [popFirst, hb'] at h
      simp only [Bool.false_eq_true, if_false] at h
      cases hrec : popFirst p rest with
      | none => rw [hrec] at h; simp at h
      | some x =>
        rw [hrec] at h
        simp only [Option.map_some', Option.some.injEq] at h
        obtain ⟨l₁, l₂, h1, h2, h3⟩ := ih hrec
        have hx1 : x.1 = a := congrArg Prod.fst h
        have hx2 : b :: x.2 = q := congrArg Prod.snd h
        refine ⟨b :: l₁, l₂, ?_, ?_, hx1 ▸ h3⟩
        · simp [h1, ← hx1]
        · rw [← hx2, h2]; simp

/-- Checkout (with a fresh, non-empty identifier) permutes the pool
identifiers and preserves the total count. -/
lemma pop_insert_facts (s : PoolState) (a : Account) (l₁ l₂ : List Account)
    (hq : s.queue = l₁ ++ a :: l₂) (hid : get_account_identifier a ≠ "")
    (hnd : (poolIds s).Nodup) :
    List.Perm
        (poolIds ⟨l₁ ++ l₂, dictInsert s.inUse (get_account_identifier a) a⟩)
        (poolIds s) ∧
      (l₁ ++ l₂).length +
          (dictInsert s.inUse (get_account_identifier a) a).length =
        s.queue.length + s.inUse.length := by
  set i := get_account_identifier a with hi
  have hids : (s.queue.map get_account_identifier).filter (fun x => x ≠ "") =
      ((l₁.map get_account_identifier).filter (fun x => x ≠ "")) ++
        i :: ((l₂.map get_account_identifier).filter (fun x => x ≠ "")) := by
    simp [hq, hid]
  have hfresh : i ∉ s.inUse.map Prod.fst := by
    intro hmem
    have := hnd
    rw [poolIds, hids, List.nodup_append] at this
    exact this.2.2 (by simp) hmem
  have hins := dictInsert_of_not_mem s.inUse i a hfresh
  constructor
  · rw [poolIds, poolIds, hids, hins]
    simp only [List.map_append, List.filter_append, List.map_cons,
      List.map_nil, List.append_assoc]
    refine List.Perm.append_left _ ?_
    exact List.Perm.trans
      (List.Perm.append_left _ List.perm_append_comm) List.perm_middle
  · rw [hq, hins]
    simp_arith

lemma eligPass1_id {ex : List String} {a : Account}
    (h : eligPass1 ex a = true) : get_account_identifier a ≠ "" := by
  rw [eligPass1, Bool.and_eq_true, Bool.and_eq_true] at h
  exact of_decide_eq_true h.1.1

lemma eligPass2_id {ex : List String} {a : Account}
    (h : eligPass2 ex a = true) : get_account_identifier a ≠ "" := by
  rw [eligPass2, Bool.and_eq_true] at h
  exact of_decide_eq_true h.1

lemma choose_preserves (ex : List String) (s : PoolState)
    (hnd : (poolIds s).Nodup) :
    List.Perm (poolIds (choose_new_account ex s).2) (poolIds s) ∧
      (choose_new_account ex s).2.queue.length +
          (choose_new_account ex s).2.inUse.length =
        s.queue.length + s.inUse.length := by
  rw [choose_new_account]
  cases h1 : popFirst (eligPass1 ex) s.queue with
  | some x =>
    obtain ⟨a, q⟩ := x
    obtain ⟨l₁, l₂, hq, hrest, hp⟩ := popFirst_eq_some h1
    subst hrest
    exact pop_insert_facts s a l₁ l₂ hq (eligPass1_id hp) hnd
  | none =>
    cases h2 : popFirst (eligPass2 ex) s.queue with
    | some x =>
      obtain ⟨a, q⟩ := x
      obtain ⟨l₁, l₂, hq, hrest, hp⟩ := popFirst_eq_some h2
      subst hrest
      exact pop_insert_facts s a l₁ l₂ hq (eligPass2_id hp) hnd
    | none => exact ⟨List.Perm.refl _, rfl⟩

lemma release_preserves (a : Account) (s : PoolState)
    (hne : ∀ x ∈ poolIds s, x ≠ "") :
    List.Perm (poolIds (release_account a s)) (poolIds s) ∧
      (release_account a s).queue.length +
          (release_account a s).inUse.length =
        s.queue.length + s.inUse.length := by
  rw [release_account]
  by_cases h : (dictFind s.inUse (get_account_identifier a)).isSome
  · have hkey : get_account_identifier a ∈ s.inUse.map Prod.fst :=
      (dictFind_isSome_iff _ _).mp h
    have hid : get_account_identifier a ≠ "" :=
      hne _ (by rw [poolIds]; exact List.mem_append_right _ hkey)
    simp only [h, if_true]
    constructor
    · rw [poolIds, poolIds]
      simp only [List.map_append, List.filter_append, map_fst_dictDel]
      have hsing : (([a].map get_account_identifier).filter
          (fun x => x ≠ "")) = [get_account_identifier a] := by simp [hid]
      rw [hsing, List.append_assoc]
      refine List.Perm.append_left _ ?_
      exact (List.perm_cons_erase hkey).symm
    · have := length_dictDel s.inUse (get_account_identifier a) hkey
      simp only [List.length_append, List.length_cons, List.length_nil]
      omega
  · simp only [h, if_false]
    exact ⟨List.Perm.refl _, rfl⟩

lemma init_facts (accounts : List Account) :
    List.Perm (poolIds (init_account_queue accounts)) (confIds accounts) ∧
      (init_account_queue accounts).queue.length +
          (init_account_queue accounts).inUse.length = accounts.length := by
  have hpart := List.filter_append_perm hasToken accounts
  constructor
  · rw [poolIds, confIds, init_account_queue]
    simpa using (hpart.map get_account_identifier).filter (fun i => i ≠ "")
  · rw [init_account_queue]
    simpa using hpart.length_eq

lemma runOps_facts (accounts : List Account)
    (hconf : (confIds accounts).Nodup) (ops : List PoolOp) :
    List.Perm (poolIds (runOps (init_account_queue accounts) ops))
        (confIds accounts) ∧
      (runOps (init_account_queue accounts) ops).queue.length +
          (runOps (init_account_queue accounts) ops).inUse.length =
        accounts.length := by
  suffices h : ∀ (s : PoolState), List.Perm (poolIds s) (confIds accounts) →
      s.queue.length + s.inUse.length = accounts.length →
      List.Perm (poolIds (runOps s ops)) (confIds accounts) ∧
        (runOps s ops).queue.length + (runOps s ops).inUse.length =
          accounts.length by
    exact h _ (init_facts accounts).1 (init_facts accounts).2
  induction ops with
  | nil => intro s h1 h2; exact ⟨h1, h2⟩
  | cons op rest ih =>
    intro s h1 h2
    have hnd : (poolIds s).Nodup := h1.nodup_iff.mpr hconf
    have hne : ∀ x ∈ poolIds s, x ≠ "" := by
      intro x hx
      have : x ∈ confIds accounts := h1.mem_iff.mp hx
      rw [confIds, List.mem_filter] at this
      exact of_decide_eq_true this.2
    cases op with
    | checkout ex =>
      have hc := choose_preserves ex s hnd
      exact ih _ (hc.1.trans h1) (by simp only [applyOp]; omega)
    | release a =>
      have hr := release_preserves a s hne
      exact ih _ (hr.1.trans h1) (by simp only [applyOp]; omega)

/-- C3 counterexample: two configured accounts sharing the identifier `a`
(both with a cached token).  After two checkouts the second insertion
overwrites the first in the checked-out dict: available 0, checked-out 1,
total 2 — the partition invariant fails without an identifier-distinctness
assumption. -/
theorem c3_counterexample :
    (runOps (init_account_queue
        [⟨"a", "", "t"⟩, ⟨"a", "", "t"⟩])
        [PoolOp.checkout [], PoolOp.checkout []]).queue.length +
      (runOps (init_account_queue [⟨"a", "", "t"⟩, ⟨"a", "", "t"⟩])
        [PoolOp.checkout [], PoolOp.checkout []]).inUse.length = 1 ∧
    ([⟨"a", "", "t"⟩, ⟨"a", "", "t"⟩] : List Account).length = 2 := by
  exact ⟨rfl, rfl⟩

/-- C3 (amended).  Pool partition invariant: provided the configured
accounts have pairwise-distinct non-empty identifiers, then after every
finite sequence of checkout/release operations starting from the
initialized pool, available_count + checked_out_count = total_count, and
the non-empty identifiers present in the pool (available queue plus
checked-out keys) are exactly the configured non-empty identifiers, each
occurring once — the queue and the map partition the configured accounts by
identifier. -/
theorem c3_pool_partition (accounts : List Account)
    (hconf : (confIds accounts).Nodup) (ops : List PoolOp) :
    (runOps (init_account_queue accounts) ops).queue.length +
        (runOps (init_account_queue accounts) ops).inUse.length =
      accounts.length ∧
    List.Perm (poolIds (runOps (init_account_queue accounts) ops))
      (confIds accounts) :=
  ⟨(runOps_facts accounts hconf ops).2, (runOps_facts accounts hconf ops).1⟩

/-- Witness for C3: two distinct accounts, a checkout, a release of the
checked-out account, and another checkout keep the counts summing to 2. -/
theorem c3_witness :
    (runOps (init_account_queue [⟨"a", "", "t"⟩, ⟨"b", "", ""⟩])
        [PoolOp.checkout [], PoolOp.release ⟨"a", "", "t"⟩,
         PoolOp.checkout []]).queue.length +
      (runOps (init_account_queue [⟨"a", "", "t"⟩, ⟨"b", "", ""⟩])
        [PoolOp.checkout [], PoolOp.release ⟨"a", "", "t"⟩,
         PoolOp.checkout []]).inUse.length = 2 := by
  have h := c3_pool_partition [⟨"a", "", "t"⟩, ⟨"b", "", ""⟩]
    (by decide) [PoolOp.checkout [], PoolOp.release ⟨"a", "", "t"⟩,
      PoolOp.checkout []]
  exact h.1

/-! ## Checkout contract (claim C4) -/

/-- Modelled from the spec's words (for comparison with the code): select
the first queue entry whose identifier is not excluded and whose cached
token is non-empty, else the first entry not excluded regardless of token
state.  (The code additionally requires a truthy identifier, and tests the
token after stripping whitespace.) -/
def chooseSpecPick (exclude : List String) (queue : List Account) :
    Option Account :=
  Option.orElse
    (queue.find? (fun a =>
      !(exclude.contains (get_account_identifier a)) && a.token != ""))
    (fun _ => queue.find? (fun a =>
      !(exclude.contains (get_account_identifier a))))

lemma popFirst_fst (p : Account → Bool) (l : List Account) :
    (popFirst p l).map Prod.fst = l.find? p := by
  induction l with
  | nil => rfl
  | cons a rest ih =>
    by_cases h : p a = true
    · simp [popFirst, h, List.find?_cons_of_pos _ h]
    · have h' : p a = false := by rwa [Bool.not_eq_true] at h
      simp only [popFirst, h', Bool.false_eq_true, if_false, Option.map_map]
      rw [List.find?_cons_of_neg _ (by simp [h'])]
      exact ih

/-- C4 counterexample: an account whose email and mobile are both empty has
a falsy identifier, so the code skips it in both passes and returns NONE —
although its token is non-empty and it is not excluded, so the claim's
selection rule would pick it. -/
theorem c4_counterexample :
    choose_new_account [] ⟨[⟨"", "", "t"⟩], []⟩ =
      (Option.none, ⟨[⟨"", "", "t"⟩], []⟩)
    ∧ chooseSpecPick [] [⟨"", "", "t"⟩] = some ⟨"", "", "t"⟩ := ⟨rfl, rfl⟩

/-- C4 (amended).  Checkout contract: checkout(exclude) returns the first
queue entry with a **non-empty identifier** not in the exclude set and a
non-empty **whitespace-stripped** cached token; failing that, the first
entry with a non-empty identifier not in the exclude set regardless of
token; otherwise NONE.  A selected entry is removed from the queue (the
rest keeping their order) and inserted into the checked-out dict under its
identifier; on NONE the pool state is unchanged. -/
theorem c4_checkout_contract (ex : List String) (s : PoolState) :
    (choose_new_account ex s).1 =
      Option.orElse (s.queue.find? (eligPass1 ex))
        (fun _ => s.queue.find? (eligPass2 ex))
    ∧ (∀ a, (choose_new_account ex s).1 = some a →
        ∃ l₁ l₂, s.queue = l₁ ++ a :: l₂ ∧
          (choose_new_account ex s).2.queue = l₁ ++ l₂ ∧
          (choose_new_account ex s).2.inUse =
            dictInsert s.inUse (get_account_identifier a) a)
    ∧ ((choose_new_account ex s).1 = Option.none →
        (choose_new_account ex s).2 = s) := by
  have hfst1 := popFirst_fst (eligPass1 ex) s.queue
  have hfst2 := popFirst_fst (eligPass2 ex) s.queue
  cases h1 : popFirst (eligPass1 ex) s.queue with
  | some x =>
    obtain ⟨a0, q⟩ := x
    rw [h1] at hfst1
    refine ⟨?_, ?_, ?_⟩
    · simp only [choose_new_account, h1, ← hfst1, Option.map_some']
      rfl
    · intro a ha
      simp only [choose_new_account, h1] at ha ⊢
      obtain ⟨l₁, l₂, hqq, hrest, hp⟩ := popFirst_eq_some h1
      cases ha
      exact ⟨l₁, l₂, hqq, by simpa using hrest, rfl⟩
    · intro hnone
      simp only [choose_new_account, h1] at hnone
      exact Option.noConfusion hnone
  | none =>
    rw [h1] at hfst1
    cases h2 : popFirst (eligPass2 ex) s.queue with
    | some x =>
      obtain ⟨a0, q⟩ := x
      rw [h2] at hfst2
      refine ⟨?_, ?_, ?_⟩
      · simp only [choose_new_account, h1, h2, ← hfst1, ← hfst2,
          Option.map_some', Option.map_none']
        rfl
      · intro a ha
        simp only [choose_new_account, h1, h2] at ha ⊢
        obtain ⟨l₁, l₂, hqq, hrest, hp⟩ := popFirst_eq_some h2
        cases ha
        exact ⟨l₁, l₂, hqq, by simpa using hrest, rfl⟩
      · intro hnone
        simp only [choose_new_account, h1, h2] at hnone
        exact Option.noConfusion hnone
    | none =>
      rw [h2] at hfst2
      refine ⟨?_, fun a ha => ?_, fun _ => ?_⟩
      · simp only [choose_new_account, h1, h2, ← hfst1, ← hfst2,
          Option.map_none']
        rfl
      · simp only [choose_new_account, h1, h2] at ha
        exact Option.noConfusion ha
      · simp only [choose_new_account, h1, h2]

/-- Witness for C4: token-tier priority — for a pool [A(no token),
B(has token)], the first checkout with no exclusions returns B. -/
theorem c4_witness :
    (choose_new_account []
      ⟨[⟨"a", "", ""⟩, ⟨"b", "", "tok"⟩], []⟩).1 = some ⟨"b", "", "tok"⟩ := by
  rw [(c4_checkout_contract [] ⟨[⟨"a", "", ""⟩, ⟨"b", "", "tok"⟩], []⟩).1]
  rfl

/-! ## Round-robin FIFO (claim C5) -/

/-- Run `n` successive no-exclusion checkouts, collecting the selected
accounts in order. -/
def checkoutRun : Nat → PoolState → List Account × PoolState
  | 0, s => ([], s)
  | n + 1, s =>
    match choose_new_account [] s with
    | (some a, s') =>
      let r := checkoutRun n s'
      (a :: r.1, r.2)
    | (Option.none, s') => ([], s')

/-- C5 counterexample: pool [A(token), C(no token)].  A is checked out and
released (to the tail, behind C), yet the next checkout selects A again —
token-tier priority overrides FIFO, so C is available but never offered. -/
theorem c5_counterexample :
    (choose_new_account []
        (init_account_queue [⟨"a", "", "t"⟩, ⟨"c", "", ""⟩])).1 =
      some ⟨"a", "", "t"⟩
    ∧ (choose_new_account []
        (release_account ⟨"a", "", "t"⟩
          (choose_new_account []
            (init_account_queue [⟨"a", "", "t"⟩, ⟨"c", "", ""⟩])).2)).1 =
      some ⟨"a", "", "t"⟩
    ∧ ⟨"c", "", ""⟩ ∈ (release_account ⟨"a", "", "t"⟩
          (choose_new_account []
            (init_account_queue [⟨"a", "", "t"⟩, ⟨"c", "", ""⟩])).2).queue
    ∧ (⟨"c", "", ""⟩ : Account) ≠ ⟨"a", "", "t"⟩ := by
  refine ⟨rfl, rfl, by decide, by decide⟩

lemma checkoutRun_all_eligible (queue : List Account) :
    ∀ s : PoolState, s.queue = queue →
      (∀ a ∈ queue, get_account_identifier a ≠ "" ∧ hasToken a = true) →
      (checkoutRun queue.length s).1 = queue := by
  induction queue with
  | nil => intro s _ _; rfl
  | cons a q ih =>
    intro s hq hgood
    have helig : eligPass1 [] a = true := by
      have h := hgood a (by simp)
      simp [eligPass1, h.1, h.2]
    have hchoose : choose_new_account [] s =
        (some a, ⟨q, dictInsert s.inUse (get_account_identifier a) a⟩) := by
      rw [choose_new_account, hq]
      simp [popFirst, helig]
    simp only [List.length_cons, checkoutRun, hchoose]
    simpa using ih ⟨q, dictInsert s.inUse (get_account_identifier a) a⟩ rfl
      (fun b hb => hgood b (by simp [hb]))

/-- C5 (amended).  Round-robin FIFO within the token tier: if every
available account has a non-empty identifier and a (stripped) non-empty
cached token, then successive no-exclusion checkouts return the available
queue in order.  In particular, when A sits at the tail (as it does right
after a release), A is offered only after every other currently-available
account has been offered once.  (With mixed tiers the property fails: see
the counterexample, where token-tier priority lets A overtake a token-less
account.) -/
theorem c5_round_robin (qFront : List Account) (A : Account) (s : PoolState)
    (hqueue : s.queue = qFront ++ [A])
    (hgood : ∀ a ∈ s.queue,
      get_account_identifier a ≠ "" ∧ hasToken a = true) :
    (checkoutRun (qFront.length + 1) s).1 = qFront ++ [A] := by
  have h := checkoutRun_all_eligible (qFront ++ [A]) s hqueue
    (by rw [← hqueue]; exact hgood)
  simpa using h

/-- Witness for C5 at a concrete pool: queue [B, A] (both with tokens);
two checkouts select B then A. -/
theorem c5_witness :
    (checkoutRun 2 ⟨[⟨"b", "", "t"⟩, ⟨"a", "", "t"⟩], []⟩).1 =
      [⟨"b", "", "t"⟩, ⟨"a", "", "t"⟩] := by
  have h := c5_round_robin [⟨"b", "", "t"⟩] ⟨"a", "", "t"⟩
    ⟨[⟨"b", "", "t"⟩, ⟨"a", "", "t"⟩], []⟩ rfl (by decide)
  simpa using h

/-! ## PoW solver (`core/pow.py`)

Per the specification the compute kernel is opaque: `compute_pow_answer` is
parameterised by the kernel, whose fixed exchange (challenge and prefix
strings in, a 4-byte signed status word and an 8-byte floating-point result
word out) is reflected in the `KernelResult` type.  The floating-point
result is modelled as a rational; Python `int(value)` truncates toward
zero. -/

structure KernelResult where
  status : Int
  value : Rat
deriving DecidableEq, Repr

/-- Python `int()` on a float: truncation toward zero. -/
def truncToInt (q : Rat) : Int := if 0 ≤ q then ⌊q⌋ else ⌈q⌉

/-- `compute_pow_answer`: reject any algorithm other than `DeepSeekHashV1`
with an unsupported-algorithm error; otherwise build the prefix
`"{salt}_{expire_at}_"`, invoke the kernel, and return no answer on status
zero, else the result truncated to an integer. -/
def compute_pow_answer (algorithm challenge_str salt : String)
    (difficulty expire_at : Int) (signature target_path : String)
    (kernel : String → String → Int → KernelResult) :
    Except String (Option Int) :=
  if algorithm != "DeepSeekHashV1" then
    .error ("不支持的算法：" ++ algorithm)
  else
    let pfx := salt ++ "_" ++ toString expire_at ++ "_"
    let r := kernel challenge_str pfx difficulty
    if r.status == 0 then .ok Option.none
    else .ok (some (truncToInt r.value))

/-- C8.  PoW solver contract: any algorithm other than the single supported
variant fails immediately with an unsupported-algorithm error — and the
result does not depend on the kernel, i.e. the kernel is not invoked; when
the kernel is invoked, status zero yields no answer (`.ok none`) and a
nonzero status yields the floating-point result word truncated to an
integer. -/
theorem c8_pow_solver_contract (algorithm challenge salt : String)
    (difficulty expire_at : Int) (signature target_path : String)
    (kernel kernel' : String → String → Int → KernelResult) :
    (algorithm ≠ "DeepSeekHashV1" →
      compute_pow_answer algorithm challenge salt difficulty expire_at
          signature target_path kernel =
        .error ("不支持的算法：" ++ algorithm) ∧
      compute_pow_answer algorithm challenge salt difficulty expire_at
          signature target_path kernel =
        compute_pow_answer algorithm challenge salt difficulty expire_at
          signature target_path kernel')
    ∧ (algorithm = "DeepSeekHashV1" →
        (kernel challenge (salt ++ "_" ++ toString expire_at ++ "_")
          difficulty).status = 0 →
        compute_pow_answer algorithm challenge salt difficulty expire_at
          signature target_path kernel = .ok Option.none)
    ∧ (algorithm = "DeepSeekHashV1" →
        (kernel challenge (salt ++ "_" ++ toString expire_at ++ "_")
          difficulty).status ≠ 0 →
        compute_pow_answer algorithm challenge salt difficulty expire_at
          signature target_path kernel =
          .ok (some (truncToInt (kernel challenge
            (salt ++ "_" ++ toString expire_at ++ "_")
            difficulty).value))) := by
  refine ⟨fun h => ?_, fun h hst => ?_, fun h hst => ?_⟩
  · have hb : (algorithm != "DeepSeekHashV1") = true := by
      simpa [bne_iff_ne] using h
    exact ⟨by simp [compute_pow_answer, hb], by simp [compute_pow_answer, hb]⟩
  · subst h
    simp [compute_pow_answer, hst]
  · subst h
    simp [compute_pow_answer, hst]

/-- Witness for C8: a wrong algorithm errors; a status-0 kernel yields no
answer; a status-3 kernel with float result 7 yields answer 7. -/
theorem c8_witness :
    compute_pow_answer "SHA1" "c" "s" 1 2 "sig" "tp"
        (fun _ _ _ => ⟨1, 0⟩) = .error ("不支持的算法：SHA1")
    ∧ compute_pow_answer "DeepSeekHashV1" "c" "s" 1 2 "sig" "tp"
        (fun _ _ _ => ⟨0, 0⟩) = .ok Option.none
    ∧ compute_pow_answer "DeepSeekHashV1" "c" "s" 1 2 "sig" "tp"
        (fun _ _ _ => ⟨3, 7⟩) = .ok (some 7) := by
  refine ⟨(((c8_pow_solver_contract "SHA1" "c" "s" 1 2 "sig" "tp"
      (fun _ _ _ => ⟨1, 0⟩) (fun _ _ _ => ⟨1, 0⟩)).1) (by decide)).1,
    (c8_pow_solver_contract "DeepSeekHashV1" "c" "s" 1 2 "sig" "tp"
      (fun _ _ _ => ⟨0, 0⟩) (fun _ _ _ => ⟨0, 0⟩)).2.1 rfl rfl, ?_⟩
  have h := (c8_pow_solver_contract "DeepSeekHashV1" "c" "s" 1 2 "sig" "tp"
      (fun _ _ _ => ⟨3, 7⟩) (fun _ _ _ => ⟨3, 7⟩)).2.2 rfl (by decide)
  rw [h]
  norm_num [truncToInt]

/-! ## Token refresh (`core/auth.py` `refresh_account_token`)

Request-scoped auth state, and the refresh flow: in pooled-credential mode
with a current account, the cached token is cleared, then a re-login is
attempted; `login_deepseek_via_account` writes a fresh token into the
account on success and raises on failure (modelled by an `Option`-valued
login parameter). -/

structure RequestState where
  useConfigToken : Bool
  account : Option Account
  deepseekToken : String
deriving DecidableEq, Repr

/-- `refresh_account_token`: non-pooled mode or no account returns false
unchanged; otherwise the account token is cleared first, then login runs —
on success the request token is updated, on failure the function returns
false with the account left in the cleared state and the request token
untouched. -/
def refresh_account_token (login : Account → Option Account)
    (st : RequestState) : Bool × RequestState :=
  if !st.useConfigToken then (false, st)
  else
    match st.account with
    | Option.none => (false, st)
    | some acc =>
      let cleared : Account := { acc with token := "" }
      match login cleared with
      | some refreshed =>
        (true, { st with account := some refreshed,
                         deepseekToken := refreshed.token })
      | Option.none => (false, { st with account := some cleared })

/-- C10.  Failed token refresh is not atomic: in pooled-credential mode
with a current account, if the re-login attempt fails then the function
returns false, the account's cached token has already been cleared to the
empty string (not restored), and the request's resolved bearer token keeps
its previous value. -/
theorem c10_failed_refresh_not_atomic (login : Account → Option Account)
    (st : RequestState) (acc : Account)
    (h1 : st.useConfigToken = true) (h2 : st.account = some acc)
    (h3 : login { acc with token := "" } = Option.none) :
    (refresh_account_token login st).1 = false
    ∧ ((refresh_account_token login st).2.account.map Account.token)
        = some ""
    ∧ (refresh_account_token login st).2.deepseekToken = st.deepseekToken :=
  by simp [refresh_account_token, h1, h2, h3]

/-- Witness for C10: a concrete pooled-mode state whose login always
fails. -/
theorem c10_witness :
    (refresh_account_token (fun _ => Option.none)
        ⟨true, some ⟨"a", "", "old"⟩, "oldtok"⟩).1 = false
    ∧ ((refresh_account_token (fun _ => Option.none)
        ⟨true, some ⟨"a", "", "old"⟩, "oldtok"⟩).2.account.map Account.token)
        = some ""
    ∧ (refresh_account_token (fun _ => Option.none)
        ⟨true, some ⟨"a", "", "old"⟩, "oldtok"⟩).2.deepseekToken
        = "oldtok" :=
  c10_failed_refresh_not_atomic (fun _ => Option.none)
    ⟨true, some ⟨"a", "", "old"⟩, "oldtok"⟩ ⟨"a", "", "old"⟩ rfl rfl rfl

/-! ## Prompt compiler (`core/messages.py` `messages_prepare`)

Message content is either a plain string or a list of typed part dicts
(the two shapes the compiler handles; `str()` coercion of other JSON
values is outside the claims).  The markdown-image substitution models
`re.sub(r"!\[(.*?)\]\((.*?)\)", r"[\1](\2)", s)`: `.` does not match a
newline, the non-greedy alt group runs to the first `](` occurrence, the
non-greedy url group to the first `)`. -/

inductive MsgContent where
  | plain : String → MsgContent
  | parts : List (List (String × PyVal)) → MsgContent

/-- Python `"\n".join(...)`. -/
def joinSep (sep : String) : List String → String
  | [] => ""
  | [x] => x
  | x :: xs => x ++ sep ++ joinSep sep xs

/-- Text of one message: list content keeps only parts whose `type` is
`"text"`, joining their `text` fields with newlines; string content is
taken as-is. -/
def contentText : MsgContent → String
  | .plain s => s
  | .parts items =>
    joinSep "\n" (items.filterMap (fun kv =>
      if (pyGetD kv "type" .none).eqStr "text" then
        some (getStrField kv "text")
      else Option.none))

/-- Merge consecutive blocks with the same role, concatenating their texts
with a double newline. -/
def mergeRoles (head : String × String) :
    List (String × String) → List (String × String)
  | [] => [head]
  | m :: rest =>
    if m.1 == head.1 then mergeRoles (head.1, head.2 ++ "\n\n" ++ m.2) rest
    else head :: mergeRoles m rest

/-- Role tagging of one merged block at position `idx`: assistant blocks are
wrapped with the assistant marker and the end-of-turn marker; user/system
blocks get the user marker except at index 0; other roles pass through. -/
def tagBlock (idx : Nat) (role text : String) : String :=
  if role == "assistant" then
    "<｜Assistant｜>" ++ text ++ "<｜end▁of▁sentence｜>"
  else if role == "user" || role == "system" then
    if idx > 0 then "<｜User｜>" ++ text else text
  else text

/-- `for idx, block in enumerate(merged)` with `"".join(parts)`. -/
def tagAllFrom (idx : Nat) : List (String × String) → String
  | [] => ""
  | b :: rest => tagBlock idx b.1 b.2 ++ tagAllFrom (idx + 1) rest

/-- Scan to the first `](` occurrence (the non-greedy alt group followed by
`\]\(`); fails on a newline or end of input. -/
def splitAtAltEnd : List Char → Option (List Char × List Char)
  | [] => Option.none
  | ']' :: '(' :: rest => some ([], rest)
  | '\n' :: _ => Option.none
  | c :: rest => (splitAtAltEnd rest).map (fun p => (c :: p.1, p.2))

/-- Scan to the first `)` (the non-greedy url group followed by `\)`);
fails on a newline or end of input. -/
def splitAtUrlEnd : List Char → Option (List Char × List Char)
  | [] => Option.none
  | ')' :: rest => some ([], rest)
  | '\n' :: _ => Option.none
  | c :: rest => (splitAtUrlEnd rest).map (fun p => (c :: p.1, p.2))

lemma splitAtAltEnd_length :
    ∀ {l a r : List Char}, splitAtAltEnd l = some (a, r) →
      r.length + 2 ≤ l.length := by
  intro l
  induction l with
  | nil => intro a r h; simp [splitAtAltEnd] at h
  | cons c rest ih =>
    intro a r h
    rw [splitAtAltEnd.eq_def] at h
    split at h
    · exact absurd h (by simp)
    · rename_i rest' heq
      simp only [Option.some.injEq, Prod.mk.injEq] at h
      injection heq with hc htl
      subst htl
      simp [← h.2]
    · exact absurd h (by simp)
    · rename_i c' rest' hne1 hne2 hne3
      injection hne3 with hc htl
      subst htl
      rw [Option.map_eq_some'] at h
      obtain ⟨p, hp, heq⟩ := h
      have := ih hp
      have hr : r = p.2 := (congrArg Prod.snd heq).symm
      simp only [List.length_cons, hr]
      omega

lemma splitAtUrlEnd_length :
    ∀ {l a r : List Char}, splitAtUrlEnd l = some (a, r) →
      r.length + 1 ≤ l.length := by
  intro l
  induction l with
  | nil => intro a r h; simp [splitAtUrlEnd] at h
  | cons c rest ih =>
    intro a r h
    rw [splitAtUrlEnd.eq_def] at h
    split at h
    · exact absurd h (by simp)
    · rename_i rest' heq
      simp only [Option.some.injEq, Prod.mk.injEq] at h
      injection heq with hc htl
      subst htl
      simp [← h.2]
    · exact absurd h (by simp)
    · rename_i c' rest' hne1 hne2 hne3
      injection hne3 with hc htl
      subst htl
      rw [Option.map_eq_some'] at h
      obtain ⟨p, hp, heq⟩ := h
      have := ih hp
      have hr : r = p.2 := (congrArg Prod.snd heq).symm
      simp only [List.length_cons, hr]
      omega

/-- The scan of `_MARKDOWN_IMAGE_PATTERN.sub(r"[\1](\2)", s)`: at `![` try
to match an image (non-greedy alt group to the first `](`, non-greedy url
group to the first `)`, neither crossing a newline); on a match emit
`[alt](url)` and continue after it, otherwise move one character on. -/
def imageRewriteL : List Char → List Char
  | [] => []
  | '!' :: '[' :: rest =>
    (match hA : splitAtAltEnd rest with
     | some (alt, rest2) =>
       (match hU : splitAtUrlEnd rest2 with
        | some (url, rest3) =>
          '[' :: (alt ++ ']' :: '(' :: (url ++ ')' :: imageRewriteL rest3))
        | Option.none => '!' :: imageRewriteL ('[' :: rest))
     | Option.none => '!' :: imageRewriteL ('[' :: rest))
  | c :: rest => c :: imageRewriteL rest
termination_by l => l.length
decreasing_by
  · have h2 := splitAtAltEnd_length hA
    have h3 := splitAtUrlEnd_length hU
    simp only [List.length_cons]
    omega
  · simp only [List.length_cons]
    omega
  · simp only [List.length_cons]
    omega
  · simp only [List.length_cons]
    omega

/-- `re.sub` of the markdown image pattern over a string. -/
def markdownImageSub (s : String) : String :=
  String.mk (imageRewriteL s.data)

/-- `messages_prepare`: extract each message's text, merge consecutive
same-role blocks with a double newline, tag the merged blocks
(assistant wrapped, user/system prefixed except at index 0), join, and
rewrite markdown images. -/
def messages_prepare (messages : List (String × MsgContent)) : String :=
  let processed := messages.map (fun m => (m.1, contentText m.2))
  match processed with
  | [] => ""
  | p :: ps => markdownImageSub (tagAllFrom 0 (mergeRoles p ps))

lemma splitAtAltEnd_exact (alt rest : List Char) (hnl : '\n' ∉ alt)
    (hbr : containsSub [']', '('] alt = false) :
    splitAtAltEnd (alt ++ ']' :: '(' :: rest) = some (alt, rest) := by
  induction alt with
  | nil => rfl
  | cons c alt' ih =>
    have hc : c ≠ '\n' := fun h => hnl (by simp [h])
    have hnl' : '\n' ∉ alt' := fun h => hnl (by simp [h])
    rw [containsSub] at hbr
    have hstart := (Bool.or_eq_false_iff.mp hbr).1
    have hbr' := (Bool.or_eq_false_iff.mp hbr).2
    rw [List.cons_append, splitAtAltEnd.eq_def]
    split
    · rename_i heq
      exact absurd heq (by simp)
    · rename_i rest' heq
      injection heq with hc1 hc2
      subst hc1
      cases alt' with
      | nil =>
        simp only [List.nil_append] at hc2
        injection hc2 with hbad
        exact absurd hbad (by decide)
      | cons d alt'' =>
        rw [List.cons_append] at hc2
        injection hc2 with hd htl
        subst hd
        simp [startsWithL] at hstart
    · rename_i heq
      injection heq with hbad
      exact absurd hbad hc
    · rename_i c' rest' hne1 hne2 hne3
      injection hne3 with hceq htl
      subst hceq
      subst htl
      rw [ih hnl' hbr']
      rfl

lemma splitAtUrlEnd_exact (url rest : List Char) (hnl : '\n' ∉ url)
    (hpar : ')' ∉ url) :
    splitAtUrlEnd (url ++ ')' :: rest) = some (url, rest) := by
  induction url with
  | nil => rfl
  | cons c url' ih =>
    have hc : c ≠ '\n' := fun h => hnl (by simp [h])
    have hcp : c ≠ ')' := fun h => hpar (by simp [h])
    have hnl' : '\n' ∉ url' := fun h => hnl (by simp [h])
    have hpar' : ')' ∉ url' := fun h => hpar (by simp [h])
    rw [List.cons_append, splitAtUrlEnd.eq_def]
    split
    · rename_i heq
      exact absurd heq (by simp)
    · rename_i rest' heq
      injection heq with hc1 hc2
      exact absurd hc1 hcp
    · rename_i heq
      injection heq with hbad
      exact absurd hbad hc
    · rename_i c' rest' hne1 hne2 hne3
      injection hne3 with hceq htl
      subst hceq
      subst htl
      rw [ih hnl' hpar']
      rfl

lemma imageRewriteL_image (alt url rest : List Char)
    (h1 : '\n' ∉ alt) (h2 : containsSub [']', '('] alt = false)
    (h3 : '\n' ∉ url) (h4 : ')' ∉ url) :
    imageRewriteL ('!' :: '[' :: (alt ++ ']' :: '(' :: (url ++ ')' :: rest)))
      = '[' :: (alt ++ ']' :: '(' :: (url ++ ')' :: imageRewriteL rest)) := by
  rw [imageRewriteL.eq_def]
  split
  · rename_i heq
    exact absurd heq (by simp)
  · rename_i rest0 heq
    injection heq with hd1 htl1
    injection htl1 with hd2 htl2
    subst htl2
    split
    · rename_i alt0 rest2 heqA
      rw [splitAtAltEnd_exact alt _ h1 h2] at heqA
      injection heqA with heqA
      injection heqA with halt hrest2
      subst halt
      subst hrest2
      split
      · rename_i url0 rest3 heqU
        rw [splitAtUrlEnd_exact url rest h3 h4] at heqU
        injection heqU with heqU
        injection heqU with hurl hrest3
        subst hurl
        subst hrest3
        rfl
      · rename_i heqU
        rw [splitAtUrlEnd_exact url rest h3 h4] at heqU
        exact absurd heqU (by simp)
    · rename_i heqA
      rw [splitAtAltEnd_exact alt _ h1 h2] at heqA
      exact absurd heqA (by simp)
  · rename_i hguard heq
    injection heq with h1 h2
    exact ((hguard (alt ++ ']' :: '(' :: (url ++ ')' :: rest))) h1.symm
      h2.symm).elim

lemma imageRewriteL_no_bracket_aux :
    ∀ (n : Nat) (l : List Char), l.length ≤ n → '[' ∉ l →
      imageRewriteL l = l := by
  intro n
  induction n with
  | zero =>
    intro l hl _
    rw [List.length_eq_zero.mp (Nat.le_zero.mp hl), imageRewriteL.eq_def]
  | succ n ih =>
    intro l hl hb
    cases l with
    | nil => rw [imageRewriteL.eq_def]
    | cons c rest =>
      rw [imageRewriteL.eq_def]
      split
      · rename_i heq
        exact absurd heq (by simp)
      · rename_i rest0 heq
        exact absurd (by rw [heq]; simp : '[' ∈ c :: rest) hb
      · rename_i hne1
        injection hne1 with h1 h2
        subst h1
        subst h2
        have hrest : '[' ∉ rest := fun h => hb (by simp [h])
        simp only [List.length_cons] at hl
        rw [ih rest (by omega) hrest]

/-- Rewriting a string without `[` characters is the identity. -/
lemma markdownImageSub_no_bracket (s : String) (h : '[' ∉ s.data) :
    markdownImageSub s = s := by
  rw [markdownImageSub, imageRewriteL_no_bracket_aux s.data.length s.data
    (Nat.le_refl _) h]

/-- C9.  Prompt compiler: consecutive same-role messages merge into one
block joined by a double newline; assistant blocks are wrapped with the
assistant marker and the end-of-turn marker; user/system blocks get the
user marker except the very first block; list content keeps only the
text-typed elements, newline-joined; and markdown images `![alt](url)` are
rewritten to `[alt](url)`.  The concrete Hi/Hello!/Bye example produces
`Hi<｜Assistant｜>Hello!<｜end▁of▁sentence｜><｜User｜>Bye`. -/
theorem c9_prompt_compiler :
    (∀ (role : String) (c1 c2 : MsgContent)
        (rest : List (String × MsgContent)),
      messages_prepare ((role, c1) :: (role, c2) :: rest) =
        messages_prepare ((role,
          MsgContent.plain (contentText c1 ++ "\n\n" ++ contentText c2))
            :: rest))
    ∧ (∀ u a b : String,
        messages_prepare [("user", .plain u), ("assistant", .plain a),
            ("user", .plain b)] =
          markdownImageSub (u ++
            ("<｜Assistant｜>" ++ a ++ "<｜end▁of▁sentence｜>") ++
            ("<｜User｜>" ++ b)))
    ∧ (∀ (role : String) (x y : String),
        messages_prepare [(role, .parts
          [[("type", PyVal.str "text"), ("text", PyVal.str x)],
           [("type", PyVal.str "image_url")],
           [("type", PyVal.str "text"), ("text", PyVal.str y)]])] =
          messages_prepare [(role, .plain (x ++ "\n" ++ y))])
    ∧ (∀ alt url rest : List Char, '\n' ∉ alt →
        containsSub [']', '('] alt = false → '\n' ∉ url → ')' ∉ url →
        markdownImageSub (String.mk
            ('!' :: '[' :: (alt ++ ']' :: '(' :: (url ++ ')' :: rest)))) =
          String.mk
            ('[' :: (alt ++ ']' :: '(' :: (url ++ ')' :: imageRewriteL rest))))
    ∧ messages_prepare [("user", .plain "Hi"), ("assistant", .plain "Hello!"),
        ("user", .plain "Bye")] =
        "Hi<｜Assistant｜>Hello!<｜end▁of▁sentence｜><｜User｜>Bye" := by
  have hmerge : ∀ (role : String) (c1 c2 : MsgContent)
      (rest : List (String × MsgContent)),
      messages_prepare ((role, c1) :: (role, c2) :: rest) =
        messages_prepare ((role,
          MsgContent.plain (contentText c1 ++ "\n\n" ++ contentText c2))
            :: rest) := by
    intro role c1 c2 rest
    simp [messages_prepare, mergeRoles, contentText]
  have hshape : ∀ u a b : String,
      messages_prepare [("user", .plain u), ("assistant", .plain a),
          ("user", .plain b)] =
        markdownImageSub (u ++
          ("<｜Assistant｜>" ++ a ++ "<｜end▁of▁sentence｜>") ++
          ("<｜User｜>" ++ b)) := by
    intro u a b
    simp [messages_prepare, mergeRoles, contentText, tagAllFrom, tagBlock,
      String.append_assoc]
  refine ⟨hmerge, hshape, ?_, ?_, ?_⟩
  · intro role x y
    simp [messages_prepare, contentText, pyGetD, dictFind, getStrField,
      PyVal.eqStr, joinSep]
  · intro alt url rest h1 h2 h3 h4
    rw [markdownImageSub]
    rw [show (String.mk
      ('!' :: '[' :: (alt ++ ']' :: '(' :: (url ++ ')' :: rest)))).data =
      '!' :: '[' :: (alt ++ ']' :: '(' :: (url ++ ')' :: rest)) from rfl]
    rw [imageRewriteL_image alt url rest h1 h2 h3 h4]
  · rw [hshape "Hi" "Hello!" "Bye", markdownImageSub_no_bracket _ (by decide)]
    rfl

/-- Witness for C9 at a concrete image: `![a](u)` becomes `[a](u)`. -/
theorem c9_witness : markdownImageSub "![a](u)" = "[a](u)" := by
  have h := c9_prompt_compiler.2.2.2.1 ['a'] ['u'] []
    (by decide) (by decide) (by decide) (by decide)
  rw [show ("![a](u)" : String) = String.mk
    ('!' :: '[' :: (['a'] ++ ']' :: '(' :: (['u'] ++ ')' :: []))) from rfl,
    h, imageRewriteL_no_bracket_aux 0 [] (Nat.le_refl 0) (by simp)]
  rfl

/-! ## Tool-call extraction (`core/sse_parser.py` `parse_tool_calls`)

This needs `json.loads` and the pre-compiled regex
`\{\s*["']tool_calls["']\s*:\s*\[(.*?)\]\s*\}` (DOTALL).  `json.loads` is
modelled by a fuel-based recursive-descent parser over `PyVal` (objects,
arrays, strings with escapes, numbers — integers exactly, other numeric
tokens kept as float tokens — and the `true`/`false`/`null` and
`NaN`/`Infinity` constants); the fuel `3·length + 9` strictly dominates the
recursion depth, so the fuel never runs out on real input.  Python `==`
(used only to compare tool names) is modelled by `pyEq`, deep structural
equality with the bool/int identification; `.get` on a non-dict raises
`AttributeError`, modelled by `Except Unit`. -/

/-- JSON whitespace (`' '`, `\t`, `\n`, `\r`). -/
def isJsonWs (c : Char) : Bool :=
  c == ' ' || c == '\t' || c == '\n' || c == '\r'

def skipWs (l : List Char) : List Char := l.dropWhile isJsonWs

def hexVal (c : Char) : Option Nat :=
  if '0' ≤ c ∧ c ≤ '9' then some (c.toNat - 48)
  else if 'a' ≤ c ∧ c ≤ 'f' then some (c.toNat - 87)
  else if 'A' ≤ c ∧ c ≤ 'F' then some (c.toNat - 55)
  else Option.none

def isDigit (c : Char) : Bool := '0' ≤ c && c ≤ '9'

/-- JSON string body after the opening quote: content chars, escapes, and
`\uXXXX` (single code unit; surrogate pairing is not modelled — no claim
exercises it); raw control characters are rejected (strict mode). -/
def parseJStr : List Char → Except Unit (List Char × List Char)
  | [] => .error ()
  | '"' :: rest => .ok ([], rest)
  | '\\' :: 'u' :: h1 :: h2 :: h3 :: h4 :: rest =>
    (match hexVal h1, hexVal h2, hexVal h3, hexVal h4 with
     | some a, some b, some c, some d =>
       (parseJStr rest).map
         (fun p => (Char.ofNat (((a * 16 + b) * 16 + c) * 16 + d) :: p.1, p.2))
     | _, _, _, _ => .error ())
  | '\\' :: '"' :: rest => (parseJStr rest).map (fun p => ('"' :: p.1, p.2))
  | '\\' :: '\\' :: rest => (parseJStr rest).map (fun p => ('\\' :: p.1, p.2))
  | '\\' :: '/' :: rest => (parseJStr rest).map (fun p => ('/' :: p.1, p.2))
  | '\\' :: 'b' :: rest =>
    (parseJStr rest).map (fun p => (Char.ofNat 8 :: p.1, p.2))
  | '\\' :: 'f' :: rest =>
    (parseJStr rest).map (fun p => (Char.ofNat 12 :: p.1, p.2))
  | '\\' :: 'n' :: rest => (parseJStr rest).map (fun p => ('\n' :: p.1, p.2))
  | '\\' :: 'r' :: rest => (parseJStr rest).map (fun p => ('\r' :: p.1, p.2))
  | '\\' :: 't' :: rest => (parseJStr rest).map (fun p => ('\t' :: p.1, p.2))
  | '\\' :: _ => .error ()
  | c :: rest =>
    if c.toNat < 32 then .error ()
    else (parseJStr rest).map (fun p => (c :: p.1, p.2))

def digitsToNat (ds : List Char) : Nat :=
  ds.foldl (fun n c => n * 10 + (c.toNat - 48)) 0

/-- Integer part per the JSON number grammar `0|[1-9]\d*`. -/
def parseIntPart : List Char → Option (List Char × List Char)
  | [] => Option.none
  | '0' :: rest => some (['0'], rest)
  | c :: rest =>
    if isDigit c then some (c :: rest.takeWhile isDigit, rest.dropWhile isDigit)
    else Option.none

/-- Optional fraction `(\.\d+)?`. -/
def fracPart : List Char → List Char × List Char
  | '.' :: c :: rest =>
    if isDigit c then
      ('.' :: c :: rest.takeWhile isDigit, rest.dropWhile isDigit)
    else ([], '.' :: c :: rest)
  | l => ([], l)

/-- Optional exponent `([eE][-+]?\d+)?`. -/
def expPart : List Char → List Char × List Char
  | e :: '+' :: d :: rest =>
    if (e == 'e' || e == 'E') && isDigit d then
      (e :: '+' :: d :: rest.takeWhile isDigit, rest.dropWhile isDigit)
    else ([], e :: '+' :: d :: rest)
  | e :: '-' :: d :: rest =>
    if (e == 'e' || e == 'E') && isDigit d then
      (e :: '-' :: d :: rest.takeWhile isDigit, rest.dropWhile isDigit)
    else ([], e :: '-' :: d :: rest)
  | e :: d :: rest =>
    if (e == 'e' || e == 'E') && isDigit d then
      (e :: d :: rest.takeWhile isDigit, rest.dropWhile isDigit)
    else ([], e :: d :: rest)
  | l => ([], l)

/-- A JSON number starting at the current position: an exact integer when
there is no fraction/exponent, otherwise a float token. -/
def parseNumber (l : List Char) : Except Unit (PyVal × List Char) :=
  let sgn : Bool × List Char :=
    match l with
    | '-' :: rest => (true, rest)
    | _ => (false, l)
  match parseIntPart sgn.2 with
  | Option.none => .error ()
  | some (ds, l2) =>
    let fr := fracPart l2
    let ex := expPart fr.2
    if fr.1.isEmpty && ex.1.isEmpty then
      let n : Int := Int.ofNat (digitsToNat ds)
      .ok (.int (if sgn.1 then -n else n), ex.2)
    else
      .ok (.float (String.mk ((if sgn.1 then ['-'] else []) ++ ds ++ fr.1
        ++ ex.1)), ex.2)

/-- Parsing mode: a value, object members (accumulated pairs), or array
items (accumulated values). -/
inductive PMode where
  | val : PMode
  | members : List (String × PyVal) → PMode
  | items : List PyVal → PMode

/-- The recursive-descent core of `json.loads`, structural in the fuel. -/
def parseCore : Nat → PMode → List Char → Except Unit (PyVal × List Char)
  | 0, _, _ => .error ()
  | fuel + 1, .val, l =>
    match l with
    | '"' :: rest =>
      (parseJStr rest).map (fun p => (PyVal.str (String.mk p.1), p.2))
    | '\x7b' :: rest =>
      (match skipWs rest with
       | '\x7d' :: r2 => .ok (.dict [], r2)
       | r2 => parseCore fuel (.members []) r2)
    | '[' :: rest =>
      (match skipWs rest with
       | ']' :: r2 => .ok (.list [], r2)
       | r2 => parseCore fuel (.items []) r2)
    | 't' :: 'r' :: 'u' :: 'e' :: rest => .ok (.bool true, rest)
    | 'f' :: 'a' :: 'l' :: 's' :: 'e' :: rest => .ok (.bool false, rest)
    | 'n' :: 'u' :: 'l' :: 'l' :: rest => .ok (.none, rest)
    | 'N' :: 'a' :: 'N' :: rest => .ok (.float "nan", rest)
    | 'I' :: 'n' :: 'f' :: 'i' :: 'n' :: 'i' :: 't' :: 'y' :: rest =>
      .ok (.float "inf", rest)
    | '-' :: 'I' :: 'n' :: 'f' :: 'i' :: 'n' :: 'i' :: 't' :: 'y' :: rest =>
      .ok (.float "-inf", rest)
    | _ => parseNumber l
  | fuel + 1, .members acc, l =>
    (match l with
     | '"' :: rest => do
       let p ← parseJStr rest
       (match skipWs p.2 with
        | ':' :: r3 => do
          let v ← parseCore fuel .val (skipWs r3)
          let acc' := dictInsert acc (String.mk p.1) v.1
          (match skipWs v.2 with
           | ',' :: r6 => parseCore fuel (.members acc') (skipWs r6)
           | '\x7d' :: r6 => .ok (.dict acc', r6)
           | _ => .error ())
        | _ => .error ())
     | _ => .error ())
  | fuel + 1, .items acc, l => do
    let v ← parseCore fuel .val l
    (match skipWs v.2 with
     | ',' :: r3 => parseCore fuel (.items (acc ++ [v.1])) (skipWs r3)
     | ']' :: r3 => .ok (.list (acc ++ [v.1]), r3)
     | _ => .error ())

/-- `json.loads`: parse one value and require only trailing whitespace. -/
def json_loads (s : String) : Except Unit PyVal :=
  let cs := skipWs s.data
  match parseCore (3 * cs.length + 9) .val cs with
  | .ok (v, r) => if skipWs r = [] then .ok v else .error ()
  | .error _ => .error ()

mutual
/-- Deep equality on values (Python `==`); bools equal the corresponding
ints, floats compare by token, dicts pairwise in insertion order (tool
names — the only values the source compares — are strings). -/
def pyEq : PyVal → PyVal → Bool
  | .none, .none => true
  | .bool x, .bool y => x == y
  | .bool x, .int n => (if x then (1 : Int) else 0) == n
  | .int n, .bool y => n == (if y then (1 : Int) else 0)
  | .int x, .int y => x == y
  | .float x, .float y => x == y
  | .str x, .str y => x == y
  | .list xs, .list ys => pyEqList xs ys
  | .dict xs, .dict ys => pyEqPairs xs ys
  | _, _ => false

/-- Elementwise deep equality on value lists. -/
def pyEqList : List PyVal → List PyVal → Bool
  | [], [] => true
  | x :: xs, y :: ys => pyEq x y && pyEqList xs ys
  | _, _ => false

/-- Pairwise deep equality on dict entries. -/
def pyEqPairs : List (String × PyVal) → List (String × PyVal) → Bool
  | [], [] => true
  | (k1, v1) :: xs, (k2, v2) :: ys =>
    k1 == k2 && pyEq v1 v2 && pyEqPairs xs ys
  | _, _ => false
end

/-- Non-greedy completion `(.*?)\]\s*\}` (DOTALL): find the shortest group
such that the next `]` is followed by optional whitespace and `}`; the
match ends after that `}`.  Returns `(group, rest-after-match)`. -/
def findCloseNG : List Char → Option (List Char × List Char)
  | [] => Option.none
  | ']' :: r =>
    (match r.dropWhile isPyWS with
     | '\x7d' :: tail => some ([], tail)
     | _ => (findCloseNG r).map (fun p => (']' :: p.1, p.2)))
  | c :: r => (findCloseNG r).map (fun p => (c :: p.1, p.2))

/-- Attempt `_TOOL_CALL_PATTERN` at the current position:
`\{\s*["']tool_calls["']\s*:\s*\[` then the non-greedy close. -/
def matchToolCallAt (cs : List Char) : Option (List Char × List Char) :=
  match cs with
  | '\x7b' :: r0 =>
    (match r0.dropWhile isPyWS with
     | q :: r2 =>
       if q == '"' || q == '\'' then
         if startsWithL "tool_calls".data r2 then
           (match r2.drop 10 with
            | q2 :: r4 =>
              if q2 == '"' || q2 == '\'' then
                (match r4.dropWhile isPyWS with
                 | ':' :: r6 =>
                   (match r6.dropWhile isPyWS with
                    | '[' :: r8 => findCloseNG r8
                    | _ => Option.none)
                 | _ => Option.none)
              else Option.none
            | [] => Option.none)
         else Option.none
       else Option.none
     | [] => Option.none)
  | _ => Option.none

/-- `re.findall` scan: try the pattern at each position, continuing after a
match; the fuel (one unit per position or match) is one step of the scan —
`length` fuel always suffices since every step drops at least one
character. -/
def findAllTC : Nat → List Char → List (List Char)
  | 0, _ => []
  | _, [] => []
  | fuel + 1, c :: rest =>
    match matchToolCallAt (c :: rest) with
    | some (g, tail) => g :: findAllTC fuel tail
    | Option.none => findAllTC fuel rest

/-- Python `for x in v`: lists iterate their elements, strings their
characters, dicts their keys; other values raise `TypeError`. -/
def pyIterE : PyVal → Except Unit (List PyVal)
  | .list xs => .ok xs
  | .str s => .ok (s.data.map (fun c => .str (String.mk [c])))
  | .dict kvs => .ok (kvs.map (fun kv => .str kv.1))
  | _ => .error ()

/-- Python `v.get(k, d)`: raises `AttributeError` unless `v` is a dict. -/
def dGetD : PyVal → String → PyVal → Except Unit PyVal
  | .dict kvs, k, d => .ok (pyGetD kvs k d)
  | _, _, _ => .error ()

/-- `any(tool.get("name") == tool_name for tool in tools_requested)` —
short-circuiting, raising if a reached tool is not a dict. -/
def anyToolNamed : List PyVal → PyVal → Except Unit Bool
  | [], _ => .ok false
  | t :: ts, name => do
    let tn ← dGetD t "name" .none
    if pyEq tn name then .ok true else anyToolNamed ts name

/-- The inner loop over parsed `tool_calls` entries: each entry's `name`
and `input` are read via `.get` (raising on non-dict entries), and the
entry is kept only when its name matches a requested tool's name. -/
def processCalls : List PyVal → List PyVal → List PyVal →
    Except Unit (List PyVal)
  | [], _, acc => .ok acc
  | tc :: rest, tools, acc =>
    match tc with
    | .dict kvs => do
      let name := pyGetD kvs "name" .none
      let input := pyGetD kvs "input" (.dict [])
      let keep ← anyToolNamed tools name
      processCalls rest tools
        (if keep then acc ++ [.dict [("name", name), ("input", input)]]
         else acc)
    | _ => .error ()

/-- `tool_data.get("tool_calls", [])` followed by the entry loop. -/
def extractFromParsed (v : PyVal) (tools : List PyVal) (acc : List PyVal) :
    Except Unit (List PyVal) := do
  let tcsV ← dGetD v "tool_calls" (.list [])
  let tcs ← pyIterE tcsV
  processCalls tcs tools acc

/-- The regex-branch loop: each matched group is wrapped back into
`{"tool_calls": [...]}` and parsed; `json.JSONDecodeError` is caught
(`continue`), any other exception propagates. -/
def regexLoop : List (List Char) → List PyVal → List PyVal →
    Except Unit (List PyVal)
  | [], _, acc => .ok acc
  | m :: ms, tools, acc =>
    match json_loads (String.mk ("\x7b\"tool_calls\": [".data ++ m
        ++ "]\x7d".data)) with
    | .error _ => regexLoop ms tools acc
    | .ok v => do
      let acc' ← extractFromParsed v tools acc
      regexLoop ms tools acc'

/-- `parse_tool_calls`: strip the text; if it is a whole
`{"tool_calls": ...]}` object, parse it directly (a JSON decode error is
caught and falls through) and return the detected calls if any were found;
otherwise run the tolerant regex scan, parsing each match independently. -/
def parse_tool_calls (text : String) (tools_requested : List PyVal) :
    Except Unit (List PyVal) := do
  let cleaned := pyStrip text
  let direct ←
    if pyStartsWith cleaned "\x7b\"tool_calls\":" &&
        pyEndsWith cleaned "]\x7d" then
      match json_loads cleaned with
      | .error _ => .ok []
      | .ok v => extractFromParsed v tools_requested []
    else .ok []
  match direct with
  | [] =>
    regexLoop (findAllTC cleaned.data.length cleaned.data) tools_requested []
  | _ => .ok direct

/-- A well-formed detected call: a `{"name": ..., "input": ...}` dict whose
name equals (Python `==`) the name of some caller-supplied tool. -/
def CallOK (tools : List PyVal) (c : PyVal) : Prop :=
  ∃ name input, c = PyVal.dict [("name", name), ("input", input)] ∧
    ∃ t ∈ tools, ∃ tn, dGetD t "name" PyVal.none = .ok tn ∧
      pyEq tn name = true

lemma anyToolNamed_ok_true {tools : List PyVal} {name : PyVal}
    (h : anyToolNamed tools name = .ok true) :
    ∃ t ∈ tools, ∃ tn, dGetD t "name" PyVal.none = .ok tn ∧
      pyEq tn name = true := by
  induction tools with
  | nil => simp [anyToolNamed] at h
  | cons t ts ih =>
    rw [anyToolNamed] at h
    cases hd : dGetD t "name" PyVal.none with
    | error e => rw [hd] at h; exact absurd h (by simp [Bind.bind, Except.bind])
    | ok tn =>
      rw [hd] at h
      simp only [Bind.bind, Except.bind] at h
      by_cases hp : pyEq tn name = true
      · exact ⟨t, by simp, tn, hd, hp⟩
      · rw [Bool.not_eq_true] at hp
        simp only [hp, Bool.false_eq_true, if_false] at h
        obtain ⟨t', ht', w⟩ := ih h
        exact ⟨t', by simp [ht'], w⟩

lemma processCalls_ok {tcs tools acc out : List PyVal}
    (h : processCalls tcs tools acc = .ok out) :
    ∀ c ∈ out, c ∈ acc ∨ CallOK tools c := by
  induction tcs generalizing acc with
  | nil =>
    rw [processCalls] at h
    injection h with h
    subst h
    exact fun c hc => Or.inl hc
  | cons tc rest ih =>
    intro c hc
    cases tc with
    | dict kvs =>
      rw [processCalls] at h
      cases hk : anyToolNamed tools (pyGetD kvs "name" PyVal.none) with
      | error e =>
        rw [hk] at h
        exact absurd h (by simp [Bind.bind, Except.bind])
      | ok keep =>
        rw [hk] at h
        simp only [Bind.bind, Except.bind] at h
        cases keep with
        | false =>
          simp only [Bool.false_eq_true, if_false] at h
          exact ih h c hc
        | true =>
          simp only [if_true] at h
          rcases ih h c hc with hmem | hok
          · rcases List.mem_append.mp hmem with hmem' | hmem'
            · exact Or.inl hmem'
            · refine Or.inr ⟨pyGetD kvs "name" PyVal.none,
                pyGetD kvs "input" (PyVal.dict []),
                by simpa using List.mem_singleton.mp hmem', ?_⟩
              exact anyToolNamed_ok_true hk
          · exact Or.inr hok
    | none => simp [processCalls] at h
    | bool b => simp [processCalls] at h
    | int n => simp [processCalls] at h
    | float f => simp [processCalls] at h
    | str s => simp [processCalls] at h
    | list l => simp [processCalls] at h

lemma extractFromParsed_ok {v : PyVal} {tools acc out : List PyVal}
    (h : extractFromParsed v tools acc = .ok out) :
    ∀ c ∈ out, c ∈ acc ∨ CallOK tools c := by
  rw [extractFromParsed] at h
  cases hd : dGetD v "tool_calls" (PyVal.list []) with
  | error e => rw [hd] at h; exact absurd h (by simp [Bind.bind, Except.bind])
  | ok tcsV =>
    rw [hd] at h
    simp only [Bind.bind, Except.bind] at h
    cases hi : pyIterE tcsV with
    | error e => rw [hi] at h; exact absurd h (by simp)
    | ok tcs =>
      rw [hi] at h
      exact processCalls_ok h

lemma regexLoop_ok {ms : List (List Char)} {tools acc out : List PyVal}
    (h : regexLoop ms tools acc = .ok out) :
    ∀ c ∈ out, c ∈ acc ∨ CallOK tools c := by
  induction ms generalizing acc with
  | nil =>
    rw [regexLoop] at h
    injection h with h
    subst h
    exact fun c hc => Or.inl hc
  | cons m ms' ih =>
    intro c hc
    rw [regexLoop] at h
    cases hj : json_loads (String.mk ("\x7b\"tool_calls\": [".data ++ m
        ++ "]\x7d".data)) with
    | error e =>
      rw [hj] at h
      exact ih h c hc
    | ok v =>
      rw [hj] at h
      simp only [Bind.bind, Except.bind] at h
      cases hx : extractFromParsed v tools acc with
      | error e => rw [hx] at h; exact absurd h (by simp)
      | ok acc' =>
        rw [hx] at h
        rcases ih h c hc with hmem | hok
        · exact (extractFromParsed_ok hx c hmem).imp id id
        · exact Or.inr hok

lemma startsWithL_iff_ex (n l : List Char) :
    startsWithL n l = true ↔ ∃ t, l = n ++ t := by
  induction n generalizing l with
  | nil => simp [startsWithL]
  | cons c ns ih =>
    cases l with
    | nil => simp [startsWithL]
    | cons d ds =>
      rw [startsWithL]
      constructor
      · intro h
        rw [Bool.and_eq_true, beq_iff_eq] at h
        obtain ⟨t, ht⟩ := (ih ds).mp h.2
        exact ⟨t, by simp [← h.1, ht]⟩
      · rintro ⟨t, ht⟩
        rw [List.cons_append] at ht
        injection ht with h1 h2
        rw [Bool.and_eq_true, beq_iff_eq]
        exact ⟨h1.symm, (ih ds).mpr ⟨t, h2⟩⟩

lemma containsSub_iff_ex (n l : List Char) :
    containsSub n l = true ↔ ∃ l₁ l₂, l = l₁ ++ (n ++ l₂) := by
  induction l with
  | nil =>
    rw [containsSub]
    constructor
    · intro h
      exact ⟨[], [], by simp [List.isEmpty_iff.mp h]⟩
    · rintro ⟨l₁, l₂, h⟩
      rcases List.append_eq_nil.mp h.symm with ⟨h1, h2⟩
      rcases List.append_eq_nil.mp h2 with ⟨h3, h4⟩
      simp [h3]
  | cons c cs ih =>
    rw [containsSub, Bool.or_eq_true, startsWithL_iff_ex, ih]
    constructor
    · rintro (⟨t, ht⟩ | ⟨l₁, l₂, h⟩)
      · exact ⟨[], t, by simpa using ht⟩
      · exact ⟨c :: l₁, l₂, by simp [h]⟩
    · rintro ⟨l₁, l₂, h⟩
      cases l₁ with
      | nil => exact Or.inl ⟨l₂, by simpa using h⟩
      | cons d l₁' =>
        right
        rw [List.cons_append] at h
        injection h with h1 h2
        exact ⟨l₁', l₂, h2⟩

lemma containsSub_of_decomp {n m l : List Char} {l₁ l₂ : List Char}
    (hl : l = l₁ ++ (m ++ l₂)) (hm : containsSub n m = true) :
    containsSub n l = true := by
  rw [containsSub_iff_ex] at hm ⊢
  obtain ⟨a, b, hdec⟩ := hm
  exact ⟨l₁ ++ a, b ++ l₂, by simp [hl, hdec]⟩

lemma pyStrip_decomp (s : String) :
    ∃ l₁ l₂, s.data = l₁ ++ ((pyStrip s).data ++ l₂) := by
  refine ⟨s.data.takeWhile isPyWS,
    ((s.data.dropWhile isPyWS).reverse.takeWhile isPyWS).reverse, ?_⟩
  conv_lhs => rw [← List.takeWhile_append_dropWhile (p := isPyWS)
    (l := s.data)]
  congr 1
  have hsplit : (s.data.dropWhile isPyWS).reverse =
      ((s.data.dropWhile isPyWS).reverse.takeWhile isPyWS) ++
        ((s.data.dropWhile isPyWS).reverse.dropWhile isPyWS) :=
    (List.takeWhile_append_dropWhile _ _).symm
  calc s.data.dropWhile isPyWS
      = (s.data.dropWhile isPyWS).reverse.reverse := by simp
    _ = (((s.data.dropWhile isPyWS).reverse.takeWhile isPyWS) ++
          ((s.data.dropWhile isPyWS).reverse.dropWhile isPyWS)).reverse := by
        rw [← hsplit]
    _ = ((s.data.dropWhile isPyWS).reverse.dropWhile isPyWS).reverse ++
          ((s.data.dropWhile isPyWS).reverse.takeWhile isPyWS).reverse := by
        rw [List.reverse_append]
    _ = (pyStrip s).data ++
          ((s.data.dropWhile isPyWS).reverse.takeWhile isPyWS).reverse := rfl

lemma matchToolCallAt_contains {cs : List Char} {p : List Char × List Char}
    (h : matchToolCallAt cs = some p) :
    containsSub "tool_calls".data cs = true := by
  cases cs with
  | nil => simp [matchToolCallAt] at h
  | cons c r0 =>
    rw [matchToolCallAt.eq_def] at h
    split at h
    · rename_i r0' heq
      injection heq with hc hr
      subst hr
      cases hdw : r0.dropWhile isPyWS with
      | nil => rw [hdw] at h; simp at h
      | cons q r2 =>
        rw [hdw] at h
        by_cases hsw : startsWithL "tool_calls".data r2 = true
        · obtain ⟨t, ht⟩ := (startsWithL_iff_ex _ _).mp hsw
          have hr0 : r0 = r0.takeWhile isPyWS ++ (q :: r2) := by
            conv_lhs => rw [← List.takeWhile_append_dropWhile (p := isPyWS)
              (l := r0)]
            rw [hdw]
          rw [containsSub_iff_ex]
          set w := r0.takeWhile isPyWS with hw
          refine ⟨c :: (w ++ [q]), t, ?_⟩
          rw [ht] at hr0
          rw [hr0]
          simp
        · rw [Bool.not_eq_true] at hsw
          simp [hsw] at h
    · exact absurd h (by simp)

lemma findAllTC_nil : ∀ (fuel : Nat) (cs : List Char),
    containsSub "tool_calls".data cs = false → findAllTC fuel cs = [] := by
  intro fuel
  induction fuel with
  | zero => intro cs _; cases cs <;> rfl
  | succ f ih =>
    intro cs h
    cases cs with
    | nil => rfl
    | cons c rest =>
      have hm : matchToolCallAt (c :: rest) = Option.none := by
        cases hmc : matchToolCallAt (c :: rest) with
        | none => rfl
        | some p => exact absurd (matchToolCallAt_contains hmc) (by simp [h])
      rw [findAllTC, hm]
      apply ih
      rw [containsSub] at h
      exact (Bool.or_eq_false_iff.mp h).2

lemma no_direct_branch (cleaned : String)
    (h : containsSub "tool_calls".data cleaned.data = false) :
    (pyStartsWith cleaned "\x7b\"tool_calls\":" &&
      pyEndsWith cleaned "]\x7d") = false := by
  by_cases hs : pyStartsWith cleaned "\x7b\"tool_calls\":" = true
  · rw [pyStartsWith] at hs
    obtain ⟨t, ht⟩ := (startsWithL_iff_ex _ _).mp hs
    have hctr : containsSub "tool_calls".data cleaned.data = true := by
      rw [containsSub_iff_ex]
      refine ⟨['\x7b', '"'], '"' :: ':' :: t, ?_⟩
      rw [ht]
      rfl
    simp [hctr] at h
  · rw [Bool.not_eq_true] at hs
    simp [hs]

/-- C6 counterexample: `parse_tool_calls` **can** raise.  On the well-formed
JSON `{"tool_calls": [1]}` the direct-parse branch succeeds, but the entry
`1` is not an object, so `tool_call.get("name")` raises `AttributeError`
(only `json.JSONDecodeError` is caught). -/
theorem c6_counterexample :
    parse_tool_calls "\x7b\"tool_calls\": [1]\x7d"
      [.dict [("name", .str "get_weather")]] = .error () := rfl

/-- C6 (amended).  Tool-call extraction: when `parse_tool_calls` returns,
every returned call is a `{"name", "input"}` record whose name equals the
name of some caller-supplied tool; text in which `tool_calls` does not even
occur as a substring yields zero calls without raising; the concrete
`get_weather` text yields exactly that one call; well-formed-looking but
malformed JSON yields zero calls without raising.  (Totality fails on
well-formed JSON whose `tool_calls` entries are not objects — see the
counterexample.) -/
theorem c6_tool_call_extraction :
    (∀ (text : String) (tools calls : List PyVal),
      parse_tool_calls text tools = .ok calls → ∀ c ∈ calls, CallOK tools c)
    ∧ (∀ (text : String) (tools : List PyVal),
        containsSub "tool_calls".data text.data = false →
        parse_tool_calls text tools = .ok [])
    ∧ parse_tool_calls
        "\x7b\"tool_calls\":[\x7b\"name\":\"get_weather\",\"input\":\x7b\"location\":\"Beijing\"\x7d\x7d]\x7d"
        [.dict [("name", .str "get_weather")]] =
        .ok [.dict [("name", .str "get_weather"),
          ("input", .dict [("location", .str "Beijing")])]]
    ∧ parse_tool_calls "\x7b\"tool_calls\": [not json]\x7d"
        [.dict [("name", .str "get_weather")]] = .ok [] := by
  refine ⟨?_, ?_, rfl, rfl⟩
  · intro text tools calls h c hc
    rw [parse_tool_calls] at h
    cases hcond : (pyStartsWith (pyStrip text) "\x7b\"tool_calls\":" &&
        pyEndsWith (pyStrip text) "]\x7d") with
    | false =>
      rw [hcond] at h
      simp only [Bool.false_eq_true, if_false, Bind.bind, Except.bind] at h
      rcases regexLoop_ok h c hc with hmem | hok
      · exact absurd hmem (List.not_mem_nil c)
      · exact hok
    | true =>
      rw [hcond] at h
      simp only [if_true] at h
      cases hjl : json_loads (pyStrip text) with
      | error e =>
        rw [hjl] at h
        simp only [Bind.bind, Except.bind] at h
        rcases regexLoop_ok h c hc with hmem | hok
        · exact absurd hmem (List.not_mem_nil c)
        · exact hok
      | ok v =>
        rw [hjl] at h
        simp only [Bind.bind, Except.bind] at h
        cases hx : extractFromParsed v tools [] with
        | error e => rw [hx] at h; exact absurd h (by simp)
        | ok d =>
          rw [hx] at h
          cases d with
          | nil =>
            rcases regexLoop_ok h c hc with hmem | hok
            · exact absurd hmem (List.not_mem_nil c)
            · exact hok
          | cons x xs =>
            injection h with h
            subst h
            rcases extractFromParsed_ok hx c hc with hmem | hok
            · exact absurd hmem (List.not_mem_nil c)
            · exact hok
  · intro text tools h
    have hclean : containsSub "tool_calls".data (pyStrip text).data
        = false := by
      by_cases hcc : containsSub "tool_calls".data (pyStrip text).data = true
      · obtain ⟨l₁, l₂, hdec⟩ := pyStrip_decomp text
        exact absurd (containsSub_of_decomp hdec hcc) (by simp [h])
      · rwa [Bool.not_eq_true] at hcc
    rw [parse_tool_calls, no_direct_branch _ hclean]
    simp only [Bool.false_eq_true, if_false, Bind.bind, Except.bind,
      findAllTC_nil _ _ hclean]
    rfl

/-- Witness for C6: a text without any `tool_calls` substring yields zero
detected calls. -/
theorem c6_witness :
    parse_tool_calls "hello world" [.dict [("name", .str "get_weather")]]
      = .ok [] :=
  c6_tool_call_extraction.2.1 "hello world"
    [.dict [("name", .str "get_weather")]] (by decide)

end DS2API
